import Mathlib

/-!
Shallow embedding of `utils/combine-sqm-tables.py` (SqueezeMeta distribution).

The script combines per-project TSV tables into unified multi-sample tables.
Python dictionaries (which preserve insertion order) are modelled as
association lists over `String` keys; `ainsert` replaces an existing key in
place and appends a fresh key at the end, exactly like a Python dict
assignment.  Files read from disk are modelled as pre-split `Table` values
(header row of sample names, data rows of feature id plus value fields); the
`open` of a missing file is an `Except.error` mirroring `FileNotFoundError`,
and the out-of-range list indexings of the script are `Except.error`s
mirroring `IndexError`.
-/

namespace CombineSQM

/-- Python `dict` lookup on an insertion-ordered association list. -/
def alookup {α : Type} : List (String × α) → String → Option α
  | [], _ => none
  | (k, v) :: rest, key => if k = key then some v else alookup rest key

/-- Python `key in dict` membership test. -/
def acontains {α : Type} (d : List (String × α)) (k : String) : Bool :=
  (alookup d k).isSome

/-- Python `dict[key] = value`: replace in place if the key exists,
append at the end otherwise (insertion order is preserved). -/
def ainsert {α : Type} : List (String × α) → String → α → List (String × α)
  | [], k, v => [(k, v)]
  | (k', v') :: rest, k, v =>
      if k' = k then (k, v) :: rest else (k', v') :: ainsert rest k v

/-- Inner map of a feature table: feature id ↦ stored textual value. -/
abbrev SubDict := List (String × String)

/-- A sparse feature map: sample name ↦ (feature id ↦ value), as accumulated
by `parse_table`. -/
abbrev FeatureDict := List (String × SubDict)

/-- Nested lookup `d[k1][k2]`. -/
def alookup2 (d : List (String × List (String × α))) (k1 k2 : String) : Option α :=
  (alookup d k1).bind (fun sub => alookup sub k2)

/-- Nested insert `d[k1][k2] = v` (assuming `d[k1]` defaults to the empty
dict when absent). -/
def ainsert2 {α : Type} (d : List (String × List (String × α))) (k1 k2 : String) (v : α) :
    List (String × List (String × α)) :=
  ainsert d k1 (ainsert ((alookup d k1).getD []) k2 v)

/-- Content of a tabular TSV file, already split on tabs: `samples` is the
header row (the leading empty index label is stripped, as
`readline().strip().split('\t')` does), and each row is the feature id in
the first field followed by the remaining value fields. -/
structure Table where
  samples : List String
  rows : List (String × List String)
  deriving DecidableEq, Repr

/-- The message of the duplicate-sample `Exception` raised by `parse_table`. -/
def dupMsg (path sample : String) : String :=
  "Error where parsing table in \"" ++ path ++ "\". Sample \"" ++ sample ++
    "\" appears more than once in your input tables."

/-- First loop of `parse_table`: for each header sample, raise the
duplicate-sample error if it is already a key of the target dict, else insert
an empty sub-dict for it.  Returns the dict as mutated so far together with
the error, if any (the Python dict is mutated in place up to the raise). -/
def insertHeaderSamples (path : String) :
    List String → FeatureDict → FeatureDict × Option String
  | [], d => (d, none)
  | s :: rest, d =>
      if acontains d s then (d, some (dupMsg path s))
      else insertHeaderSamples path rest (ainsert d s [])

/-- One data row of `parse_table`: `for sample, value in zip(samples, line[1:]):
targetDict[sample][feature] = value` (zip truncates to the shorter list; the
header pass inserted every sample, so the outer lookup always succeeds). -/
def insertRow (feature : String) : List String → List String → FeatureDict → FeatureDict
  | s :: ss, v :: vs, d => insertRow feature ss vs (ainsert2 d s feature v)
  | _, _, d => d

/-- `parse_table(path, targetDict)`: inserts the samples of a table into the
dict and returns the header's sample list, or raises on a duplicate sample. -/
def parse_table (path : String) (t : Table) (d : FeatureDict) :
    Except String (List String × FeatureDict) :=
  match insertHeaderSamples path t.samples d with
  | (_, some e) => .error e
  | (d', none) =>
      .ok (t.samples, t.rows.foldl (fun acc r => insertRow r.1 t.samples r.2 acc) d')

/-- All feature ids seen across all samples of a feature map (with
repetitions), i.e. the union of the inner dicts' key lists. -/
def allFeatures (d : FeatureDict) : List String :=
  (d.map (fun p => p.2.map Prod.fst)).flatten

/-- The row index built by `DataFrame.from_dict(...).sort_index()`:
the set of all feature ids, sorted ascending.  Python compares strings
lexicographically by code point, i.e. by their character lists. -/
def featureIndex (d : FeatureDict) : List String :=
  List.insertionSort (fun a b : String => a.data ≤ b.data) (allFeatures d).dedup

/-- A dense cell: the stored value if the `(sample, feature)` pair is in the
sparse map, else the `fillna(0)` zero (which `to_csv` renders as `0`). -/
def cellValue (d : FeatureDict) (s f : String) : String :=
  (alookup2 d s f).getD "0"

/-- `write_feature_dict(sampleNames, featureDict, outName)`:
`DataFrame.from_dict(featureDict).fillna(0).sort_index()[sampleNames]`.
Column selection raises a `KeyError` (here `none`) when a requested sample is
not a column of the frame; otherwise the emitted table has the sample order
exactly as given and one dense row per feature of the sorted index. -/
def write_feature_dict (sampleNames : List String) (d : FeatureDict) : Option Table :=
  if sampleNames.all (fun s => acontains d s) then
    some { samples := sampleNames,
           rows := (featureIndex d).map
             (fun f => (f, sampleNames.map (fun s => cellValue d s f))) }
  else none

/-! ## The main loop

`main` is modelled as a fold of `processProjectM` over the project list.
External effects are recorded as `Event`s: the `subprocess.call` of the
table-generation collaborator, and each file opened for parsing.  `TraceM`
is a writer monad over `Except`: an error keeps the events emitted so far. -/

/-- Observable external actions of the script. -/
inductive Event where
  /-- `call(command)` of the table-generation collaborator. -/
  | gen : List String → Event
  /-- A table file opened for parsing, by full path. -/
  | parsed : String → Event
  deriving DecidableEq, Repr

/-- Writer-over-`Except` monad: result plus the trace of emitted events. -/
abbrev TraceM (α : Type) : Type := Except String α × List Event

/-- Bind for `TraceM`: thread the result, concatenate the traces, and stop
at the first error (keeping the trace up to it). -/
def bindT {α β : Type} (x : TraceM α) (f : α → TraceM β) : TraceM β :=
  match x with
  | (.ok a, tr) => ((f a).1, tr ++ (f a).2)
  | (.error e, tr) => (.error e, tr)

instance : Monad TraceM where
  pure a := (.ok a, [])
  bind := bindT

/-- Record one external event. -/
def emit (e : Event) : TraceM Unit := (.ok (), [e])

/-- Lift a fallible computation with no external events. -/
def liftE {α : Type} (x : Except String α) : TraceM α := (x, [])

/-- Raise an exception (aborts the run, keeping no events of its own). -/
def throwT {α : Type} (e : String) : TraceM α := (.error e, [])

/-- The command-line arguments of the script (`--paths-file` is carried as
the lines of the file it names, when provided). -/
structure Args where
  project_paths : List String
  paths_file : Option (List String)
  output_dir : String
  output_prefix : String
  trusted_functions : Bool
  ignore_unclassified : Bool
  sqmreads : Bool
  force_overwrite : Bool
  deriving DecidableEq, Repr

/-- A project directory as the script observes it.  `rootFiles` is the
listing of the project directory itself; `tables` maps each file name of
`results/tables/` to its content, as it stands after the optional
table-generation step; `preHasCOGAbund` records whether the
`{project}.COG.abund.tsv` check file existed before that step (it decides
whether the collaborator is invoked). -/
structure Project where
  path : String
  rootFiles : List String
  preHasCOGAbund : Bool
  tables : List (String × Table)
  deriving DecidableEq, Repr

/-- `listdir` of the project's table directory. -/
def listing (p : Project) : List String := p.tables.map Prod.fst

/-- Python `str.split(sep)` for a one-character separator, structurally on
the character list (`''.split('.') == ['']`, empty pieces kept). -/
def splitOnChar (c : Char) : List Char → List (List Char)
  | [] => [[]]
  | x :: xs =>
      match splitOnChar c xs with
      | [] => if x = c then [[], []] else [[x]]
      | g :: gs => if x = c then [] :: g :: gs else (x :: g) :: gs

/-- `s.split(c)` as strings. -/
def pySplit (c : Char) (s : String) : List String :=
  (splitOnChar c s.data).map (fun l => ⟨l⟩)

/-- Python `str.strip('/')`: drop `/` characters from both ends. -/
def stripSlashes (s : String) : String :=
  ⟨((s.data.dropWhile (· = '/')).reverse.dropWhile (· = '/')).reverse⟩

/-- `projName = projPath.strip('/').split('/')[-1]`. -/
def projNameOf (path : String) : String :=
  (pySplit '/' (stripSlashes path)).getLastD ""

/-- Project-validity check: `SqueezeMeta_conf.pl` in standard mode, the
`{projName}.out.mappingstat` file in `--sqm-reads` mode. -/
def validMarker (args : Args) (p : Project) : Bool :=
  if !args.sqmreads then p.rootFiles.contains "SqueezeMeta_conf.pl"
  else p.rootFiles.contains (projNameOf p.path ++ ".out.mappingstat")

/-- Message of the invalid-project `Exception`. -/
def invalidMsg (path : String) : String :=
  "Path \"" ++ path ++ "\" does not exist, or does not contain a valid SQM project"

/-- The trailing option arguments of the table-generation command, in the
order the script appends them. -/
def genFlagArgs (args : Args) : List String :=
  (if !args.sqmreads && args.ignore_unclassified then ["--ignore_unclassified"] else [])
    ++ (if args.trusted_functions then ["--trusted-functions"] else [])
    ++ ["--force-overwrite"]

/-- The full `sqm2tables.py` / `sqmreads2tables.py` command invoked when the
check table is missing. -/
def genCommand (sqmpath : String) (args : Args) (projPath : String) : List String :=
  (if !args.sqmreads then [sqmpath ++ "/utils/sqm2tables.py"]
   else [sqmpath ++ "/utils/sqmreads2tables.py"])
    ++ [projPath, projPath ++ "/results/tables"] ++ genFlagArgs args

/-- Full path of a file of the project's table directory. -/
def tablePath (p : Project) (fname : String) : String :=
  p.path ++ "/results/tables/" ++ fname

/-- `isfile` on the table directory. -/
def hasTableFile (p : Project) (fname : String) : Bool :=
  (alookup p.tables fname).isSome

/-- `open` on the table directory; a missing file is a `FileNotFoundError`. -/
def openTable (p : Project) (fname : String) : Except String Table :=
  match alookup p.tables fname with
  | some t => .ok t
  | none => .error ("FileNotFoundError: " ++ tablePath p fname)

/-- Open a table file and feed it to `parse_table`, recording the event. -/
def parseIntoM (p : Project) (fname : String) (d : FeatureDict) :
    TraceM (List String × FeatureDict) := do
  let t ← liftE (openTable p fname)
  emit (.parsed (tablePath p fname))
  liftE (parse_table (tablePath p fname) t d)

/-- The metric suffixes accepted by custom-method discovery. -/
def countsNames : List String := ["abund", "tpm", "copyNumber"]

/-- The reserved method names excluded from custom-method discovery. -/
def reservedNames : List String :=
  ["KO", "COG", "PFAM", "allfilter", "prokfilter", "nofilter", "orf", "contig"]

/-- `custom_thissample`: method ↦ (metric ↦ file name), for one project. -/
abbrev CustomThis := List (String × List (String × String))

/-- `customFunMethods`: method ↦ (metric ↦ accumulated feature map). -/
abbrev CustomDict := List (String × List (String × FeatureDict))

/-- Registration into `custom_thissample`: initialise the method's entry if
absent, then `custom_thissample[method][counts] = f`. -/
def registerCT (ct : CustomThis) (method counts f : String) : CustomThis :=
  ainsert2 (if acontains ct method then ct else ainsert ct method []) method counts f

/-- Registration into `customFunMethods`: initialise the method's entry if
absent, then initialise `customFunMethods[method][counts]` if absent. -/
def registerCFM (cfm : CustomDict) (method counts : String) : CustomDict :=
  let cfm0 := if acontains cfm method then cfm else ainsert cfm method []
  if acontains ((alookup cfm0 method).getD []) counts then cfm0
  else ainsert2 cfm0 method counts []

/-- One file name of the discovery loop: `fields = f.split('.')`,
`method = fields[-3]`, `counts = fields[-2]` (an `IndexError` when the name
has fewer than three dot-separated fields, since Python rejects the negative
index), then register the `(method, counts)` pair when the metric is
recognised and the method is not reserved. -/
def discoverStep (acc : CustomThis × CustomDict) (f : String) :
    Except String (CustomThis × CustomDict) :=
  let fields := pySplit '.' f
  if 3 ≤ fields.length then
    let method := fields.getD (fields.length - 3) ""
    let counts := fields.getD (fields.length - 2) ""
    if counts ∈ countsNames ∧ method ∉ reservedNames then
      .ok (registerCT acc.1 method counts f, registerCFM acc.2 method counts)
    else .ok acc
  else .error "IndexError: list index out of range"

/-- The discovery fold over a file listing. -/
def discoverLoop : List String → (CustomThis × CustomDict) → Except String (CustomThis × CustomDict)
  | [], acc => .ok acc
  | f :: rest, acc =>
      match discoverStep acc f with
      | .error e => .error e
      | .ok acc' => discoverLoop rest acc'

/-- The discovery loop over the table-directory listing, starting from an
empty `custom_thissample` and the accumulated `customFunMethods`. -/
def discoverCustom (files : List String) (cfm : CustomDict) :
    Except String (CustomThis × CustomDict) :=
  discoverLoop files ([], cfm)

/-- The 21 taxonomic accumulation dicts (7 ranks × 3 filters). -/
structure TaxState where
  all_superkingdom : FeatureDict
  all_phylum : FeatureDict
  all_class : FeatureDict
  all_order : FeatureDict
  all_family : FeatureDict
  all_genus : FeatureDict
  all_species : FeatureDict
  prok_superkingdom : FeatureDict
  prok_phylum : FeatureDict
  prok_class : FeatureDict
  prok_order : FeatureDict
  prok_family : FeatureDict
  prok_genus : FeatureDict
  prok_species : FeatureDict
  no_superkingdom : FeatureDict
  no_phylum : FeatureDict
  no_class : FeatureDict
  no_order : FeatureDict
  no_family : FeatureDict
  no_genus : FeatureDict
  no_species : FeatureDict
  deriving Repr

/-- The abund/copyNumber/tpm dicts and presence flag of one functional
annotation type. -/
structure FunState where
  abund : FeatureDict
  copy : FeatureDict
  tpm : FeatureDict
  flag : Bool
  deriving Repr

/-- `namesInfo[method]`: a dict with a `Name` key and, for KO/COG, a `Path`
key, each mapping feature ids to strings (same shape as a feature map). -/
abbrev NamesDict := List (String × FeatureDict)

/-- The accumulation state of `main` across the project loop. -/
structure CombState where
  sampleNames : List String
  tax : TaxState
  KOabund : FeatureDict
  KOcopy : FeatureDict
  KOtpm : FeatureDict
  COGabund : FeatureDict
  COGcopy : FeatureDict
  COGtpm : FeatureDict
  PFAMabund : FeatureDict
  PFAMcopy : FeatureDict
  PFAMtpm : FeatureDict
  customFunMethods : CustomDict
  namesInfo : NamesDict
  hasKEGG : Bool
  hasCOG : Bool
  hasPFAM : Bool
  deriving Repr

/-- State before the project loop: empty dicts, `hasKEGG = hasCOG = True`,
`hasPFAM = not args.sqmreads`. -/
def initState (args : Args) : CombState :=
  { sampleNames := []
    tax := ⟨[], [], [], [], [], [], [], [], [], [], [], [], [], [], [], [], [], [], [], [], []⟩
    KOabund := [], KOcopy := [], KOtpm := []
    COGabund := [], COGcopy := [], COGtpm := []
    PFAMabund := [], PFAMcopy := [], PFAMtpm := []
    customFunMethods := [], namesInfo := []
    hasKEGG := true, hasCOG := true, hasPFAM := !args.sqmreads }

/-- Parse one taxonomic table `{proj}.{rank}.{filter}.abund.tsv` and return
the updated dict. -/
def parseTax (p : Project) (projName rank filt : String) (d : FeatureDict) :
    TraceM FeatureDict := do
  let r ← parseIntoM p (projName ++ "." ++ rank ++ "." ++ filt ++ ".abund.tsv") d
  pure r.2

/-- The 21 taxonomic `parse_table` calls, in source order; the sample list of
the first (`superkingdom.allfilter`) is returned for the registry. -/
def parseAllTax (p : Project) (projName : String) (tx : TaxState) :
    TraceM (List String × TaxState) := do
  let r0 ← parseIntoM p (projName ++ ".superkingdom.allfilter.abund.tsv") tx.all_superkingdom
  let d02 ← parseTax p projName "phylum" "allfilter" tx.all_phylum
  let d03 ← parseTax p projName "class" "allfilter" tx.all_class
  let d04 ← parseTax p projName "order" "allfilter" tx.all_order
  let d05 ← parseTax p projName "family" "allfilter" tx.all_family
  let d06 ← parseTax p projName "genus" "allfilter" tx.all_genus
  let d07 ← parseTax p projName "species" "allfilter" tx.all_species
  let d08 ← parseTax p projName "superkingdom" "prokfilter" tx.prok_superkingdom
  let d09 ← parseTax p projName "phylum" "prokfilter" tx.prok_phylum
  let d10 ← parseTax p projName "class" "prokfilter" tx.prok_class
  let d11 ← parseTax p projName "order" "prokfilter" tx.prok_order
  let d12 ← parseTax p projName "family" "prokfilter" tx.prok_family
  let d13 ← parseTax p projName "genus" "prokfilter" tx.prok_genus
  let d14 ← parseTax p projName "species" "prokfilter" tx.prok_species
  let d15 ← parseTax p projName "superkingdom" "nofilter" tx.no_superkingdom
  let d16 ← parseTax p projName "phylum" "nofilter" tx.no_phylum
  let d17 ← parseTax p projName "class" "nofilter" tx.no_class
  let d18 ← parseTax p projName "order" "nofilter" tx.no_order
  let d19 ← parseTax p projName "family" "nofilter" tx.no_family
  let d20 ← parseTax p projName "genus" "nofilter" tx.no_genus
  let d21 ← parseTax p projName "species" "nofilter" tx.no_species
  pure (r0.1, ⟨r0.2, d02, d03, d04, d05, d06, d07, d08, d09, d10, d11, d12, d13, d14,
               d15, d16, d17, d18, d19, d20, d21⟩)

/-- The KO / COG block: if the `{proj}.{method}.abund.tsv` table is missing,
clear the presence flag; otherwise parse the abund table and, outside
`--sqm-reads` mode, the copyNumber and tpm tables as well. -/
def parseFunctional (args : Args) (p : Project) (projName method : String)
    (fs : FunState) : TraceM FunState := do
  if !(hasTableFile p (projName ++ "." ++ method ++ ".abund.tsv")) then
    pure { fs with flag := false }
  else do
    let ra ← parseIntoM p (projName ++ "." ++ method ++ ".abund.tsv") fs.abund
    if !args.sqmreads then do
      let rc ← parseIntoM p (projName ++ "." ++ method ++ ".copyNumber.tsv") fs.copy
      let rt ← parseIntoM p (projName ++ "." ++ method ++ ".tpm.tsv") fs.tpm
      pure { fs with abund := ra.2, copy := rc.2, tpm := rt.2 }
    else
      pure { fs with abund := ra.2 }

/-- The PFAM block, which is skipped entirely in `--sqm-reads` mode and
always parses all three metric tables otherwise. -/
def parsePFAM (args : Args) (p : Project) (projName : String)
    (fs : FunState) : TraceM FunState := do
  if args.sqmreads then
    pure fs
  else if !(hasTableFile p (projName ++ ".PFAM.abund.tsv")) then
    pure { fs with flag := false }
  else do
    let ra ← parseIntoM p (projName ++ ".PFAM.abund.tsv") fs.abund
    let rc ← parseIntoM p (projName ++ ".PFAM.copyNumber.tsv") fs.copy
    let rt ← parseIntoM p (projName ++ ".PFAM.tpm.tsv") fs.tpm
    pure { fs with abund := ra.2, copy := rc.2, tpm := rt.2 }

/-- Inner custom-parse loop: each `(counts, f)` of one method's
`custom_thissample` entry is parsed into `customFunMethods[method][counts]`. -/
def parseCustomCounts (p : Project) (method : String) :
    List (String × String) → CustomDict → TraceM CustomDict
  | [], cfm => pure cfm
  | (counts, f) :: rest, cfm => do
      let d := (alookup2 cfm method counts).getD []
      let r ← parseIntoM p f d
      parseCustomCounts p method rest (ainsert2 cfm method counts r.2)

/-- Outer custom-parse loop over `custom_thissample`. -/
def parseCustomTables (p : Project) :
    CustomThis → CustomDict → TraceM CustomDict
  | [], cfm => pure cfm
  | (method, cmaps) :: rest, cfm => do
      let cfm' ← parseCustomCounts p method cmaps cfm
      parseCustomTables p rest cfm'

/-- Accumulate the rows of a `.names.tsv` file into a `namesInfo` entry:
`Name[line[0]] = line[1]`, and `Path[line[0]] = line[2]` when the entry has
a `Path` key; a short row raises an `IndexError`. -/
def parseNamesRows : List (String × List String) → FeatureDict → Except String FeatureDict
  | [], e => .ok e
  | (id0, vals) :: rest, e =>
      match vals.get? 0 with
      | none => .error "IndexError: list index out of range"
      | some nm =>
          let e := ainsert2 e "Name" id0 nm
          if acontains e "Path" then
            match vals.get? 1 with
            | none => .error "IndexError: list index out of range"
            | some pth => parseNamesRows rest (ainsert2 e "Path" id0 pth)
          else parseNamesRows rest e

/-- One iteration of the per-project names loop: initialise
`namesInfo[method]` if absent (with a `Path` part exactly for KO and COG),
open `{proj}.{method}.names.tsv` — a `FileNotFoundError` if the project does
not have it — burn the header and accumulate the rows. -/
def parseNamesFile (p : Project) (projName method : String) (ni : NamesDict) :
    TraceM NamesDict := do
  let entry :=
    match alookup ni method with
    | some e => e
    | none => if method = "KO" ∨ method = "COG" then [("Name", []), ("Path", [])]
              else [("Name", [])]
  let t ← liftE (openTable p (projName ++ "." ++ method ++ ".names.tsv"))
  emit (.parsed (tablePath p (projName ++ "." ++ method ++ ".names.tsv")))
  let entry' ← liftE (parseNamesRows t.rows entry)
  pure (ainsert ni method entry')

/-- The per-project names loop over `allMethods`. -/
def namesLoop (p : Project) (projName : String) :
    List String → NamesDict → TraceM NamesDict
  | [], ni => pure ni
  | method :: rest, ni => do
      let ni' ← parseNamesFile p projName method ni
      namesLoop p projName rest ni'

/-- `allMethods`: KO and COG while their flags hold, then every discovered
custom method in registration order. -/
def allMethodsList (hasKEGG hasCOG : Bool) (cfm : CustomDict) : List String :=
  (if hasKEGG then ["KO"] else []) ++ (if hasCOG then ["COG"] else [])
    ++ cfm.map Prod.fst

/-- The table-generation step: when the `{proj}.COG.abund.tsv` check file was
absent, `call` the collaborator command (recorded as a `gen` event). -/
def genStep (sqmpath : String) (args : Args) (p : Project) : TraceM Unit :=
  if !p.preHasCOGAbund then emit (.gen (genCommand sqmpath args p.path)) else pure ()

/-- One iteration of the project loop of `main`: validation, optional table
generation, custom-method discovery, the taxonomic / functional / custom
`parse_table` calls, and the names loop, in source order. -/
def processProjectM (sqmpath : String) (args : Args) (p : Project) (st : CombState) :
    TraceM CombState :=
  let projName := projNameOf p.path
  if !(validMarker args p) then throwT (invalidMsg p.path)
  else do
    let _u ← genStep sqmpath args p
    let dc ← liftE (discoverCustom (listing p) st.customFunMethods)
    let txr ← parseAllTax p projName st.tax
    let ko ← parseFunctional args p projName "KO" ⟨st.KOabund, st.KOcopy, st.KOtpm, st.hasKEGG⟩
    let cog ← parseFunctional args p projName "COG" ⟨st.COGabund, st.COGcopy, st.COGtpm, st.hasCOG⟩
    let pf ← parsePFAM args p projName ⟨st.PFAMabund, st.PFAMcopy, st.PFAMtpm, st.hasPFAM⟩
    let cfm ← parseCustomTables p dc.1 dc.2
    let ni ← namesLoop p projName (allMethodsList ko.flag cog.flag cfm) st.namesInfo
    pure { sampleNames := st.sampleNames ++ txr.1
           tax := txr.2
           KOabund := ko.abund, KOcopy := ko.copy, KOtpm := ko.tpm
           COGabund := cog.abund, COGcopy := cog.copy, COGtpm := cog.tpm
           PFAMabund := pf.abund, PFAMcopy := pf.copy, PFAMtpm := pf.tpm
           customFunMethods := cfm
           namesInfo := ni
           hasKEGG := ko.flag, hasCOG := cog.flag, hasPFAM := pf.flag }

/-- The project loop. -/
def runProjectsM (sqmpath : String) (args : Args) :
    List Project → CombState → TraceM CombState
  | [], st => pure st
  | p :: rest, st => do
      let st' ← processProjectM sqmpath args p st
      runProjectsM sqmpath args rest st'

/-- The whole accumulation phase of `main` over the resolved project list. -/
def runCombine (sqmpath : String) (args : Args) (ps : List Project) : TraceM CombState :=
  runProjectsM sqmpath args ps (initState args)

/-! ## Emission

Each `write_feature_dict` call of `main` becomes a `WriteSpec` (column
order, feature map, output file name relative to the output prefix), and the
calls are executed in source order by an `Except`-valued map. -/

/-- One pending `write_feature_dict` call. -/
structure WriteSpec where
  cols : List String
  dict : FeatureDict
  fname : String

/-- Execute one write: the emitted `(full name, dense table)` pair, or the
pandas `KeyError` of the column selection. -/
def wfdE (pfx : String) (w : WriteSpec) : Except String (String × Table) :=
  match write_feature_dict w.cols w.dict with
  | some t => .ok (pfx ++ w.fname, t)
  | none => .error ("KeyError: " ++ pfx ++ w.fname)

/-- `Except`-valued map in element order. -/
def emapM {α β : Type} (f : α → Except String β) : List α → Except String (List β)
  | [] => .ok []
  | a :: rest =>
      match f a with
      | .error e => .error e
      | .ok b =>
          match emapM f rest with
          | .error e => .error e
          | .ok bs => .ok (b :: bs)

/-- The 21 taxonomic `(featureDict, output name)` pairs, in source order. -/
def taxPairs (st : CombState) : List (FeatureDict × String) :=
  [(st.tax.all_superkingdom, "superkingdom.allfilter.abund.tsv"),
   (st.tax.all_phylum, "phylum.allfilter.abund.tsv"),
   (st.tax.all_class, "class.allfilter.abund.tsv"),
   (st.tax.all_order, "order.allfilter.abund.tsv"),
   (st.tax.all_family, "family.allfilter.abund.tsv"),
   (st.tax.all_genus, "genus.allfilter.abund.tsv"),
   (st.tax.all_species, "species.allfilter.abund.tsv"),
   (st.tax.prok_superkingdom, "superkingdom.prokfilter.abund.tsv"),
   (st.tax.prok_phylum, "phylum.prokfilter.abund.tsv"),
   (st.tax.prok_class, "class.prokfilter.abund.tsv"),
   (st.tax.prok_order, "order.prokfilter.abund.tsv"),
   (st.tax.prok_family, "family.prokfilter.abund.tsv"),
   (st.tax.prok_genus, "genus.prokfilter.abund.tsv"),
   (st.tax.prok_species, "species.prokfilter.abund.tsv"),
   (st.tax.no_superkingdom, "superkingdom.nofilter.abund.tsv"),
   (st.tax.no_phylum, "phylum.nofilter.abund.tsv"),
   (st.tax.no_class, "class.nofilter.abund.tsv"),
   (st.tax.no_order, "order.nofilter.abund.tsv"),
   (st.tax.no_family, "family.nofilter.abund.tsv"),
   (st.tax.no_genus, "genus.nofilter.abund.tsv"),
   (st.tax.no_species, "species.nofilter.abund.tsv")]

/-- The KO / COG / PFAM `(featureDict, output name)` pairs, each block gated
by its presence flag (and the copyNumber / tpm and PFAM writes additionally
by standard mode), in source order after the taxonomic ones. -/
def stdPairs (args : Args) (st : CombState) : List (FeatureDict × String) :=
  taxPairs st
    ++ (if st.hasKEGG then
          (st.KOabund, "KO.abund.tsv") ::
            (if !args.sqmreads then
               [(st.KOcopy, "KO.copyNumber.tsv"), (st.KOtpm, "KO.tpm.tsv")]
             else [])
        else [])
    ++ (if st.hasCOG then
          (st.COGabund, "COG.abund.tsv") ::
            (if !args.sqmreads then
               [(st.COGcopy, "COG.copyNumber.tsv"), (st.COGtpm, "COG.tpm.tsv")]
             else [])
        else [])
    ++ (if !args.sqmreads && st.hasPFAM then
          [(st.PFAMabund, "PFAM.abund.tsv"), (st.PFAMcopy, "PFAM.copyNumber.tsv"),
           (st.PFAMtpm, "PFAM.tpm.tsv")]
        else [])

/-- The standard-category writes: every one uses the global sample registry
as its column order. -/
def stdWriteSpecs (args : Args) (st : CombState) : List WriteSpec :=
  (stdPairs args st).map (fun dn => ⟨st.sampleNames, dn.1, dn.2⟩)

/-- Output file name `'{method}.{counts}.tsv'` of a custom-method write. -/
def funFileName (method counts : String) : String :=
  method ++ ("." ++ (counts ++ ".tsv"))

/-- The custom-method writes: for each registered method and metric, the
column order is the global registry restricted to the samples present in
that metric's map (`custom_sampleNames`). -/
def customWriteSpecs (st : CombState) : List WriteSpec :=
  st.customFunMethods.flatMap (fun mp =>
    mp.2.map (fun cp =>
      ⟨st.sampleNames.filter (fun s => acontains cp.2 s), cp.2, funFileName mp.1 cp.1⟩))

/-- Output file name `method + '.names.tsv'` of a names write. -/
def namesFileName (method : String) : String := method ++ ".names.tsv"

/-- The names write of one method: columns `['Name', 'Path']` for KO and
COG, `['Name']` otherwise; `namesInfo[method]` raises a `KeyError` when
absent. -/
def namesWrite (st : CombState) (pfx method : String) : Except String (String × Table) :=
  match alookup st.namesInfo method with
  | none => .error ("KeyError: " ++ method)
  | some e =>
      wfdE pfx ⟨if method = "KO" ∨ method = "COG" then ["Name", "Path"] else ["Name"],
                e, namesFileName method⟩

/-- The whole emission phase: standard writes, custom-method writes, then
the names writes, in source order. -/
def emitOutputs (args : Args) (pfx : String) (st : CombState) :
    Except String (List (String × Table)) :=
  match emapM (wfdE pfx) (stdWriteSpecs args st) with
  | .error e => .error e
  | .ok std =>
      match emapM (wfdE pfx) (customWriteSpecs st) with
      | .error e => .error e
      | .ok cust =>
          match emapM (namesWrite st pfx) (allMethodsList st.hasKEGG st.hasCOG st.customFunMethods) with
          | .error e => .error e
          | .ok nms => .ok (std ++ cust ++ nms)

/-- The output prefix `'{output_dir}/{output_prefix}.'`. -/
def outPfx (args : Args) : String :=
  args.output_dir ++ "/" ++ args.output_prefix ++ "."

/-! ## CLI path resolution -/

/-- Python `str.strip()`: drop whitespace from both ends. -/
def stripWS (s : String) : String :=
  ⟨((s.data.dropWhile Char.isWhitespace).reverse.dropWhile Char.isWhitespace).reverse⟩

/-- Resolution of the project path list: when `--paths-file` is given its
stripped non-blank lines are used and the positional paths are ignored;
otherwise the positional paths are used; with neither, exit. -/
def resolveProjPaths (args : Args) : Except String (List String) :=
  match args.paths_file with
  | some lines => .ok (lines.filterMap (fun l => if stripWS l ≠ "" then some (stripWS l) else none))
  | none =>
      if args.project_paths ≠ [] then .ok args.project_paths
      else .error "Project paths were not provided. Exiting..."

/-! ## Association-list lemmas -/

theorem alookup_ainsert_self {α : Type} (d : List (String × α)) (k : String) (v : α) :
    alookup (ainsert d k v) k = some v := by
  induction d with
  | nil => simp [ainsert, alookup]
  | cons p rest ih =>
      by_cases h : p.1 = k
      · simp [ainsert, alookup, h]
      · simp [ainsert, alookup, h, ih]

theorem alookup_ainsert_ne {α : Type} (d : List (String × α)) {k k' : String} (v : α)
    (h : k' ≠ k) : alookup (ainsert d k v) k' = alookup d k' := by
  have hkk : ¬(k = k') := fun he => h he.symm
  induction d with
  | nil => simp [ainsert, alookup, hkk]
  | cons p rest ih =>
      by_cases hp : p.1 = k
      · subst hp
        simp [ainsert, alookup, hkk]
      · by_cases hk' : p.1 = k'
        · simp [ainsert, hp, alookup, hk', h]
        · simp [ainsert, hp, alookup, hk', ih]

theorem acontains_ainsert_of {α : Type} {d : List (String × α)} {k : String}
    (k' : String) (v : α) (h : acontains d k = true) :
    acontains (ainsert d k' v) k = true := by
  by_cases he : k = k'
  · subst he
    simp [acontains, alookup_ainsert_self]
  · simpa [acontains, alookup_ainsert_ne d v he] using h

theorem acontains_iff_mem_keys {α : Type} (d : List (String × α)) (k : String) :
    acontains d k = true ↔ k ∈ d.map Prod.fst := by
  induction d with
  | nil => simp [acontains, alookup]
  | cons p rest ih =>
      by_cases h : p.1 = k
      · simp [acontains, alookup, h]
      · have hne : ¬(k = p.1) := fun he => h he.symm
        rw [show acontains (p :: rest) k = acontains rest k by simp [acontains, alookup, h]]
        simp only [List.map_cons, List.mem_cons]
        rw [ih]
        simp [hne]

theorem keys_ainsert {α : Type} (d : List (String × α)) (k : String) (v : α) :
    (ainsert d k v).map Prod.fst =
      if acontains d k then d.map Prod.fst else d.map Prod.fst ++ [k] := by
  induction d with
  | nil => simp [ainsert, acontains, alookup]
  | cons p rest ih =>
      by_cases h : p.1 = k
      · simp [ainsert, acontains, alookup, h]
      · simp only [ainsert, if_neg h, List.map_cons, acontains, alookup, if_neg h]
        rw [show (alookup rest k).isSome = acontains rest k from rfl, ih]
        by_cases hc : acontains rest k <;> simp [hc]

/-! ## `parse_table` lemmas (duplicate-sample behaviour) -/

theorem insertHeaderSamples_error (path : String) :
    ∀ (ss : List String) (d : FeatureDict),
      (∃ s ∈ ss, acontains d s = true) →
      ∃ s ∈ ss, (insertHeaderSamples path ss d).2 = some (dupMsg path s)
  | [], _, h => by simp at h
  | s :: rest, d, h => by
      by_cases hc : acontains d s = true
      · exact ⟨s, List.mem_cons_self s rest, by simp [insertHeaderSamples, hc]⟩
      · obtain ⟨s₀, hmem, hs₀⟩ := h
        have hne : s₀ ≠ s := fun he => hc (he ▸ hs₀)
        have hmem' : s₀ ∈ rest := by
          rcases List.mem_cons.mp hmem with he | hm
          · exact absurd he hne
          · exact hm
        have : ∃ x ∈ rest, acontains (ainsert d s []) x = true :=
          ⟨s₀, hmem', acontains_ainsert_of s [] hs₀⟩
        obtain ⟨s₁, hmem₁, h₁⟩ := insertHeaderSamples_error path rest (ainsert d s []) this
        exact ⟨s₁, List.mem_cons_of_mem s hmem₁, by simpa [insertHeaderSamples, hc] using h₁⟩

theorem insertHeaderSamples_preserves (path : String) :
    ∀ (ss : List String) (d : FeatureDict) (s : String),
      acontains d s = true →
      alookup (insertHeaderSamples path ss d).1 s = alookup d s
  | [], _, _, _ => rfl
  | s₀ :: rest, d, s, h => by
      by_cases hc : acontains d s₀ = true
      · simp [insertHeaderSamples, hc]
      · have hne : s ≠ s₀ := fun he => hc (he ▸ h)
        have h' : acontains (ainsert d s₀ []) s = true := acontains_ainsert_of s₀ [] h
        have := insertHeaderSamples_preserves path rest (ainsert d s₀ []) s h'
        simpa [insertHeaderSamples, hc, alookup_ainsert_ne d ([] : SubDict) hne] using this

/-- Claim C1: if any sample name in the file's header row is already a key of
the target dict, `parse_table` fails with the duplicate-sample exception —
whose message names the path and an offending sample of the header — and the
lookup of every sample that was already present is unchanged by the header
pass (no value of an existing sample is overwritten; data rows are only
processed after the whole header pass succeeds). -/
theorem parse_table_duplicate_sample_error (path : String) (t : Table) (d : FeatureDict)
    (h : ∃ s ∈ t.samples, acontains d s = true) :
    (∃ s ∈ t.samples,
        parse_table path t d = .error (dupMsg path s) ∧
        ∃ pre mid post, dupMsg path s = pre ++ path ++ mid ++ s ++ post) ∧
    (∀ s, acontains d s = true →
        alookup (insertHeaderSamples path t.samples d).1 s = alookup d s) := by
  obtain ⟨s, hmem, herr⟩ := insertHeaderSamples_error path t.samples d h
  refine ⟨⟨s, hmem, ?_, ?_⟩, fun s' hs' => insertHeaderSamples_preserves path t.samples d s' hs'⟩
  · unfold parse_table
    rcases hp : insertHeaderSamples path t.samples d with ⟨d', e⟩
    rw [hp] at herr
    simp only at herr
    rw [herr]
  · exact ⟨"Error where parsing table in \"", "\". Sample \"",
      "\" appears more than once in your input tables.", by
        simp [dupMsg, String.append_assoc]⟩

/-- Witness for C1 at a concrete table and dict. -/
theorem parse_table_duplicate_sample_error_witness :
    (∃ s ∈ (⟨["S1"], []⟩ : Table).samples,
        acontains [("S1", ([("g", "9")] : SubDict))] s = true) ∧
    (∃ s ∈ (⟨["S1"], []⟩ : Table).samples,
        parse_table "path" ⟨["S1"], []⟩ [("S1", [("g", "9")])] = .error (dupMsg "path" s) ∧
        ∃ pre mid post, dupMsg "path" s = pre ++ "path" ++ mid ++ s ++ post) := by
  have h : ∃ s ∈ (⟨["S1"], []⟩ : Table).samples,
      acontains [("S1", ([("g", "9")] : SubDict))] s = true := ⟨"S1", by simp, by rfl⟩
  exact ⟨h, (parse_table_duplicate_sample_error "path" ⟨["S1"], []⟩ [("S1", [("g", "9")])] h).1⟩

/-! ## `write_feature_dict` lemmas (dense zero-filled emission) -/

theorem write_feature_dict_eq (ns : List String) (d : FeatureDict) (t : Table)
    (h : write_feature_dict ns d = some t) :
    t = { samples := ns,
          rows := (featureIndex d).map
            (fun f => (f, ns.map (fun s => cellValue d s f))) } := by
  unfold write_feature_dict at h
  by_cases hc : ns.all (fun s => acontains d s) = true
  · rw [if_pos hc] at h
    exact (Option.some_injective _ h).symm
  · rw [if_neg hc] at h
    exact absurd h (by simp)

theorem mem_rows_of_write {ns : List String} {d : FeatureDict} {t : Table}
    (h : write_feature_dict ns d = some t) {f : String} {vs : List String}
    (hm : (f, vs) ∈ t.rows) :
    f ∈ featureIndex d ∧ vs = ns.map (fun s => cellValue d s f) := by
  rw [write_feature_dict_eq ns d t h] at hm
  simp only [List.mem_map] at hm
  obtain ⟨f₀, hf₀, he⟩ := hm
  cases he
  exact ⟨hf₀, rfl⟩

/-- Claim C2: every emitted table is fully dense over its grid — each row has
exactly one cell per requested sample — and any cell whose `(sample, feature)`
pair is absent from the sparse map is the `fillna` zero. -/
theorem write_feature_dict_dense_zero_fill (ns : List String) (d : FeatureDict) (t : Table)
    (h : write_feature_dict ns d = some t) :
    (∀ r ∈ t.rows, r.2.length = ns.length) ∧
    (∀ f vs, (f, vs) ∈ t.rows → ∀ i, ∀ hi : i < ns.length,
        alookup2 d ns[i] f = none → vs[i]? = some "0") := by
  constructor
  · intro r hr
    obtain ⟨-, hvs⟩ := mem_rows_of_write h hr
    simp [hvs]
  · intro f vs hm i hi habs
    obtain ⟨-, hvs⟩ := mem_rows_of_write h hm
    subst hvs
    rw [List.getElem?_map, List.getElem?_eq_getElem hi]
    simp [cellValue, habs]

/-- Witness for C2 at a concrete map and sample order: the `(S2, b)` pair is
absent from the sparse map and its cell is `0`. -/
theorem write_feature_dict_dense_zero_fill_witness :
    write_feature_dict ["S2", "S1"] [("S1", [("b", "1"), ("a", "2")]), ("S2", [("a", "3")])] =
      some ⟨["S2", "S1"], [("a", ["3", "2"]), ("b", ["0", "1"])]⟩ ∧
    (["0", "1"] : List String)[0]? = some "0" := by
  have h : write_feature_dict ["S2", "S1"]
      [("S1", [("b", "1"), ("a", "2")]), ("S2", [("a", "3")])] =
      some ⟨["S2", "S1"], [("a", ["3", "2"]), ("b", ["0", "1"])]⟩ := by rfl
  refine ⟨h, ?_⟩
  exact (write_feature_dict_dense_zero_fill _ _ _ h).2 "b" ["0", "1"] (by simp) 0
    (by decide) (by rfl)

instance : IsTotal String (fun a b : String => a.data ≤ b.data) :=
  ⟨fun a b => le_total a.data b.data⟩

instance : IsTrans String (fun a b : String => a.data ≤ b.data) :=
  ⟨fun _ _ _ h1 h2 => le_trans h1 h2⟩

theorem featureIndex_sorted (d : FeatureDict) :
    List.Pairwise (fun a b : String => a.data < b.data) (featureIndex d) := by
  have hsorted : List.Pairwise (fun a b : String => a.data ≤ b.data) (featureIndex d) :=
    List.sorted_insertionSort (fun a b : String => a.data ≤ b.data) (allFeatures d).dedup
  have hnodup : (featureIndex d).Nodup :=
    (List.perm_insertionSort (fun a b : String => a.data ≤ b.data)
      (allFeatures d).dedup).nodup_iff.mpr (List.nodup_dedup (allFeatures d))
  refine (hsorted.and hnodup).imp ?_
  rintro a b ⟨hle, hne⟩
  refine lt_of_le_of_ne hle (fun hd => hne ?_)
  cases a; cases b
  exact congrArg String.mk hd

theorem mem_featureIndex (d : FeatureDict) (f : String) :
    f ∈ featureIndex d ↔ f ∈ allFeatures d := by
  unfold featureIndex
  rw [(List.perm_insertionSort (fun a b : String => a.data ≤ b.data)
    (allFeatures d).dedup).mem_iff]
  exact List.mem_dedup

/-- Claim C4: the emitted row index is exactly the set of feature ids of the
sparse map, strictly sorted in ascending codepoint order; the column index is
the sample order exactly as given; and present cells keep their stored
textual value. -/
theorem write_feature_dict_row_col_index (ns : List String) (d : FeatureDict) (t : Table)
    (h : write_feature_dict ns d = some t) :
    t.samples = ns ∧
    List.Pairwise (fun a b : String => a.data < b.data) (t.rows.map Prod.fst) ∧
    (∀ f, f ∈ t.rows.map Prod.fst ↔ f ∈ allFeatures d) ∧
    (∀ f vs v, (f, vs) ∈ t.rows → ∀ i, ∀ hi : i < ns.length,
        alookup2 d ns[i] f = some v → vs[i]? = some v) := by
  have he := write_feature_dict_eq ns d t h
  have hkeys : t.rows.map Prod.fst = featureIndex d := by
    rw [he]
    simp only [List.map_map]
    have hcomp : (Prod.fst ∘ fun f => (f, ns.map (fun s => cellValue d s f))) = id := rfl
    rw [hcomp, List.map_id]
  refine ⟨by rw [he], ?_, ?_, ?_⟩
  · rw [hkeys]; exact featureIndex_sorted d
  · intro f; rw [hkeys]; exact mem_featureIndex d f
  · intro f vs v hm i hi hv
    obtain ⟨-, hvs⟩ := mem_rows_of_write h hm
    subst hvs
    rw [List.getElem?_map, List.getElem?_eq_getElem hi]
    simp [cellValue, hv]

/-- Witness for C4 at the same concrete map: rows `[a, b]` sorted, columns
`[S2, S1]` as given, and the stored value `3` of `(S2, a)` is emitted
unchanged. -/
theorem write_feature_dict_row_col_index_witness :
    write_feature_dict ["S2", "S1"] [("S1", [("b", "1"), ("a", "2")]), ("S2", [("a", "3")])] =
      some ⟨["S2", "S1"], [("a", ["3", "2"]), ("b", ["0", "1"])]⟩ ∧
    (⟨["S2", "S1"], [("a", ["3", "2"]), ("b", ["0", "1"])]⟩ : Table).samples = ["S2", "S1"] ∧
    (["3", "2"] : List String)[0]? = some "3" := by
  have h : write_feature_dict ["S2", "S1"]
      [("S1", [("b", "1"), ("a", "2")]), ("S2", [("a", "3")])] =
      some ⟨["S2", "S1"], [("a", ["3", "2"]), ("b", ["0", "1"])]⟩ := by rfl
  have hmain := write_feature_dict_row_col_index _ _ _ h
  exact ⟨h, hmain.1, hmain.2.2.2 "a" ["3", "2"] "3" (by simp) 0 (by decide) (by rfl)⟩

/-! ## `TraceM` inversion lemmas -/

theorem pureT_eq {α : Type} (a : α) : (pure a : TraceM α) = (Except.ok a, []) := rfl

theorem bindT_ok {α β : Type} {x : TraceM α} {f : α → TraceM β} {b : β} {tr : List Event}
    (h : (x >>= f) = (Except.ok b, tr)) :
    ∃ a tra trb, x = (Except.ok a, tra) ∧ f a = (Except.ok b, trb) ∧ tr = tra ++ trb := by
  rcases hx : x with ⟨r, tra⟩
  cases r with
  | error e =>
      rw [show (x >>= f) = bindT x f from rfl, hx] at h
      simp [bindT] at h
  | ok a =>
      rw [show (x >>= f) = bindT x f from rfl, hx] at h
      simp only [bindT] at h
      refine ⟨a, tra, (f a).2, rfl, ?_, ?_⟩
      · have h1 : (f a).1 = Except.ok b := congrArg Prod.fst h
        calc f a = ((f a).1, (f a).2) := rfl
          _ = (Except.ok b, (f a).2) := by rw [h1]
      · exact (congrArg Prod.snd h).symm

theorem bindT_error {α β : Type} {x : TraceM α} {f : α → TraceM β} {e : String} {tr : List Event}
    (h : (x >>= f) = (Except.error e, tr)) :
    x = (Except.error e, tr) ∨
      ∃ a tra trb, x = (Except.ok a, tra) ∧ f a = (Except.error e, trb) ∧ tr = tra ++ trb := by
  rcases hx : x with ⟨r, tra⟩
  cases r with
  | error e' =>
      rw [show (x >>= f) = bindT x f from rfl, hx] at h
      simp only [bindT] at h
      have he : e' = e := by
        have h1 := congrArg Prod.fst h
        exact Except.error.inj h1
      have htr : tra = tr := congrArg Prod.snd h
      left
      rw [he, htr]
  | ok a =>
      rw [show (x >>= f) = bindT x f from rfl, hx] at h
      simp only [bindT] at h
      right
      refine ⟨a, tra, (f a).2, rfl, ?_, ?_⟩
      · have h1 : (f a).1 = Except.error e := congrArg Prod.fst h
        calc f a = ((f a).1, (f a).2) := rfl
          _ = (Except.error e, (f a).2) := by rw [h1]
      · exact (congrArg Prod.snd h).symm

theorem liftE_ok {α : Type} {x : Except String α} {a : α} {tr : List Event}
    (h : liftE x = (Except.ok a, tr)) : x = Except.ok a ∧ tr = [] := by
  unfold liftE at h
  exact ⟨congrArg Prod.fst h, (congrArg Prod.snd h).symm⟩

/-! ## Stage lemmas for `processProjectM` -/

theorem parse_table_ok_fst {path : String} {t : Table} {d : FeatureDict}
    {r : List String × FeatureDict} (h : parse_table path t d = Except.ok r) :
    r.1 = t.samples := by
  unfold parse_table at h
  rcases hp : insertHeaderSamples path t.samples d with ⟨d', e⟩
  rw [hp] at h
  cases e with
  | none => cases h; rfl
  | some m => simp at h

/-- Header of the `superkingdom.allfilter` table of a project (`[]` when the
file is absent, in which case parsing cannot have succeeded anyway). -/
def skHeader (p : Project) : List String :=
  match alookup p.tables (projNameOf p.path ++ ".superkingdom.allfilter.abund.tsv") with
  | some t => t.samples
  | none => []

theorem parseIntoM_ok {p : Project} {fname : String} {d : FeatureDict}
    {r : List String × FeatureDict} {tr : List Event}
    (h : parseIntoM p fname d = (Except.ok r, tr)) :
    ∃ t, alookup p.tables fname = some t ∧
      parse_table (tablePath p fname) t d = Except.ok r := by
  unfold parseIntoM at h
  obtain ⟨t, tra, trb, h1, h2, _⟩ := bindT_ok h
  obtain ⟨ht, -⟩ := liftE_ok h1
  obtain ⟨u, trc, trd, _, h4, _⟩ := bindT_ok h2
  obtain ⟨hp, -⟩ := liftE_ok h4
  refine ⟨t, ?_, hp⟩
  unfold openTable at ht
  rcases hl : alookup p.tables fname with _ | t'
  · rw [hl] at ht; simp at ht
  · rw [hl] at ht; cases ht; rfl

theorem parseAllTax_ok_fst {p : Project} {n : String} {tx : TaxState}
    {r : List String × TaxState} {tr : List Event}
    (h : parseAllTax p n tx = (Except.ok r, tr)) :
    ∃ t, alookup p.tables (n ++ ".superkingdom.allfilter.abund.tsv") = some t ∧
      r.1 = t.samples := by
  unfold parseAllTax at h
  obtain ⟨r0, tr0, trk, h0, hk, _⟩ := bindT_ok h
  obtain ⟨t, ht, hp⟩ := parseIntoM_ok h0
  obtain ⟨a2, _, _, _, hk, _⟩ := bindT_ok hk
  obtain ⟨a3, _, _, _, hk, _⟩ := bindT_ok hk
  obtain ⟨a4, _, _, _, hk, _⟩ := bindT_ok hk
  obtain ⟨a5, _, _, _, hk, _⟩ := bindT_ok hk
  obtain ⟨a6, _, _, _, hk, _⟩ := bindT_ok hk
  obtain ⟨a7, _, _, _, hk, _⟩ := bindT_ok hk
  obtain ⟨a8, _, _, _, hk, _⟩ := bindT_ok hk
  obtain ⟨a9, _, _, _, hk, _⟩ := bindT_ok hk
  obtain ⟨a10, _, _, _, hk, _⟩ := bindT_ok hk
  obtain ⟨a11, _, _, _, hk, _⟩ := bindT_ok hk
  obtain ⟨a12, _, _, _, hk, _⟩ := bindT_ok hk
  obtain ⟨a13, _, _, _, hk, _⟩ := bindT_ok hk
  obtain ⟨a14, _, _, _, hk, _⟩ := bindT_ok hk
  obtain ⟨a15, _, _, _, hk, _⟩ := bindT_ok hk
  obtain ⟨a16, _, _, _, hk, _⟩ := bindT_ok hk
  obtain ⟨a17, _, _, _, hk, _⟩ := bindT_ok hk
  obtain ⟨a18, _, _, _, hk, _⟩ := bindT_ok hk
  obtain ⟨a19, _, _, _, hk, _⟩ := bindT_ok hk
  obtain ⟨a20, _, _, _, hk, _⟩ := bindT_ok hk
  obtain ⟨a21, _, _, _, hk, _⟩ := bindT_ok hk
  have h1 := congrArg Prod.fst hk
  have h2 := Except.ok.inj h1
  have hr2 : r.1 = r0.1 := (congrArg Prod.fst h2).symm
  refine ⟨t, ht, ?_⟩
  rw [hr2]
  exact parse_table_ok_fst hp

theorem ok_inj_of_pure_eq {α : Type} {a b : α} {tr : List Event}
    (h : (pure a : TraceM α) = (Except.ok b, tr)) : a = b :=
  Except.ok.inj (congrArg Prod.fst h)

theorem parseFunctional_ok_flag {args : Args} {p : Project} {n method : String}
    {fs fs' : FunState} {tr : List Event}
    (h : parseFunctional args p n method fs = (Except.ok fs', tr)) :
    fs'.flag = (fs.flag && hasTableFile p (n ++ "." ++ method ++ ".abund.tsv")) := by
  unfold parseFunctional at h
  cases hf : hasTableFile p (n ++ "." ++ method ++ ".abund.tsv") with
  | false =>
      rw [hf] at h
      simp only [Bool.not_false, if_true] at h
      have := ok_inj_of_pure_eq h
      rw [← this]
      simp
  | true =>
      rw [hf] at h
      simp only [Bool.not_true, Bool.false_eq_true, if_false] at h
      cases hs : args.sqmreads with
      | false =>
          rw [hs] at h
          simp only [Bool.not_false, if_true] at h
          obtain ⟨ra, _, _, _, hk, _⟩ := bindT_ok h
          obtain ⟨rc, _, _, _, hk, _⟩ := bindT_ok hk
          obtain ⟨rt, _, _, _, hk, _⟩ := bindT_ok hk
          have := ok_inj_of_pure_eq hk
          rw [← this]
          simp
      | true =>
          rw [hs] at h
          simp only [Bool.not_true, Bool.false_eq_true, if_false] at h
          obtain ⟨ra, _, _, _, hk, _⟩ := bindT_ok h
          have := ok_inj_of_pure_eq hk
          rw [← this]
          simp

theorem parsePFAM_ok_flag {args : Args} {p : Project} {n : String}
    {fs fs' : FunState} {tr : List Event}
    (h : parsePFAM args p n fs = (Except.ok fs', tr)) :
    fs'.flag = if args.sqmreads then fs.flag
               else fs.flag && hasTableFile p (n ++ ".PFAM.abund.tsv") := by
  unfold parsePFAM at h
  cases hs : args.sqmreads with
  | true =>
      rw [hs] at h
      simp only [if_true] at h
      have := ok_inj_of_pure_eq h
      rw [← this]
      simp
  | false =>
      rw [hs] at h
      simp only [Bool.false_eq_true, if_false] at h
      cases hf : hasTableFile p (n ++ ".PFAM.abund.tsv") with
      | false =>
          rw [hf] at h
          simp only [Bool.not_false, if_true] at h
          have := ok_inj_of_pure_eq h
          rw [← this]
          simp
      | true =>
          rw [hf] at h
          simp only [Bool.not_true, Bool.false_eq_true, if_false] at h
          obtain ⟨ra, _, _, _, hk, _⟩ := bindT_ok h
          obtain ⟨rc, _, _, _, hk, _⟩ := bindT_ok hk
          obtain ⟨rt, _, _, _, hk, _⟩ := bindT_ok hk
          have := ok_inj_of_pure_eq hk
          rw [← this]
          simp

/-! ## Inversion of one project iteration -/

theorem processProjectM_invalid {sq : String} {args : Args} {p : Project} {st : CombState}
    (h : validMarker args p = false) :
    processProjectM sq args p st = (Except.error (invalidMsg p.path), []) := by
  unfold processProjectM
  rw [h]
  simp [throwT]

theorem processProjectM_ok {sq : String} {args : Args} {p : Project} {st st' : CombState}
    {tr : List Event} (h : processProjectM sq args p st = (Except.ok st', tr)) :
    validMarker args p = true ∧
    ∃ dc txr trt ko trk cog trc pf trp cfm trcf ni trn,
      discoverCustom (listing p) st.customFunMethods = Except.ok dc ∧
      parseAllTax p (projNameOf p.path) st.tax = (Except.ok txr, trt) ∧
      parseFunctional args p (projNameOf p.path) "KO"
        ⟨st.KOabund, st.KOcopy, st.KOtpm, st.hasKEGG⟩ = (Except.ok ko, trk) ∧
      parseFunctional args p (projNameOf p.path) "COG"
        ⟨st.COGabund, st.COGcopy, st.COGtpm, st.hasCOG⟩ = (Except.ok cog, trc) ∧
      parsePFAM args p (projNameOf p.path)
        ⟨st.PFAMabund, st.PFAMcopy, st.PFAMtpm, st.hasPFAM⟩ = (Except.ok pf, trp) ∧
      parseCustomTables p dc.1 dc.2 = (Except.ok cfm, trcf) ∧
      namesLoop p (projNameOf p.path) (allMethodsList ko.flag cog.flag cfm) st.namesInfo
        = (Except.ok ni, trn) ∧
      st' = { sampleNames := st.sampleNames ++ txr.1
              tax := txr.2
              KOabund := ko.abund, KOcopy := ko.copy, KOtpm := ko.tpm
              COGabund := cog.abund, COGcopy := cog.copy, COGtpm := cog.tpm
              PFAMabund := pf.abund, PFAMcopy := pf.copy, PFAMtpm := pf.tpm
              customFunMethods := cfm
              namesInfo := ni
              hasKEGG := ko.flag, hasCOG := cog.flag, hasPFAM := pf.flag } := by
  by_cases hval : validMarker args p
  · unfold processProjectM at h
    rw [hval] at h
    simp only [Bool.not_true, Bool.false_eq_true, if_false] at h
    refine ⟨hval, ?_⟩
    obtain ⟨u0, _, _, _, hk, _⟩ := bindT_ok h
    obtain ⟨dc, _, _, hdc, hk, _⟩ := bindT_ok hk
    obtain ⟨hdc', _⟩ := liftE_ok hdc
    obtain ⟨txr, trt0, _, htx, hk, _⟩ := bindT_ok hk
    obtain ⟨ko, trk0, _, hko, hk, _⟩ := bindT_ok hk
    obtain ⟨cog, trc0, _, hcog, hk, _⟩ := bindT_ok hk
    obtain ⟨pf, trp0, _, hpf, hk, _⟩ := bindT_ok hk
    obtain ⟨cfm, trcf0, _, hcfm, hk, _⟩ := bindT_ok hk
    obtain ⟨ni, trn0, _, hni, hk, _⟩ := bindT_ok hk
    have hst := ok_inj_of_pure_eq hk
    exact ⟨dc, txr, trt0, ko, trk0, cog, trc0, pf, trp0, cfm, trcf0, ni, trn0,
      hdc', htx, hko, hcog, hpf, hcfm, hni, hst.symm⟩
  · have hvf : validMarker args p = false := by simpa using hval
    rw [processProjectM_invalid hvf] at h
    exact absurd (congrArg Prod.fst h) (by simp)

/-! ## The project loop -/

theorem runProjectsM_nil {sq : String} {args : Args} {st : CombState} :
    runProjectsM sq args [] st = (Except.ok st, []) := rfl

theorem runProjectsM_cons_ok {sq : String} {args : Args} {p : Project} {ps : List Project}
    {st st' : CombState} {tr : List Event}
    (h : runProjectsM sq args (p :: ps) st = (Except.ok st', tr)) :
    ∃ st₁ tra trb, processProjectM sq args p st = (Except.ok st₁, tra) ∧
      runProjectsM sq args ps st₁ = (Except.ok st', trb) ∧ tr = tra ++ trb := by
  unfold runProjectsM at h
  exact bindT_ok h

theorem runProjectsM_sampleNames {sq : String} {args : Args} :
    ∀ {ps : List Project} {st st' : CombState} {tr : List Event},
      runProjectsM sq args ps st = (Except.ok st', tr) →
      st'.sampleNames = st.sampleNames ++ (ps.map skHeader).flatten
  | [], st, st', tr, h => by
      rw [runProjectsM_nil] at h
      have := @ok_inj_of_pure_eq _ st _ _ (by rw [← h]; rfl)
      rw [← this]
      simp
  | p :: ps, st, st', tr, h => by
      obtain ⟨st₁, _, _, hp, hrest, _⟩ := runProjectsM_cons_ok h
      obtain ⟨-, dc, txr, _, _, _, _, _, _, _, _, _, _, _, -, htx, -, -, -, -, -, hst⟩ :=
        processProjectM_ok hp
      have hsk : txr.1 = skHeader p := by
        obtain ⟨t, ht, hs⟩ := parseAllTax_ok_fst htx
        rw [hs]
        unfold skHeader
        rw [ht]
      have ih := runProjectsM_sampleNames hrest
      rw [ih, hst]
      simp only [List.map_cons, List.flatten_cons, hsk]
      simp [List.append_assoc]

theorem runProjectsM_flags {sq : String} {args : Args} :
    ∀ {ps : List Project} {st st' : CombState} {tr : List Event},
      runProjectsM sq args ps st = (Except.ok st', tr) →
      st'.hasKEGG = (st.hasKEGG &&
          ps.all (fun p => hasTableFile p (projNameOf p.path ++ ".KO.abund.tsv"))) ∧
      st'.hasCOG = (st.hasCOG &&
          ps.all (fun p => hasTableFile p (projNameOf p.path ++ ".COG.abund.tsv"))) ∧
      st'.hasPFAM = (if args.sqmreads then st.hasPFAM
          else st.hasPFAM &&
            ps.all (fun p => hasTableFile p (projNameOf p.path ++ ".PFAM.abund.tsv")))
  | [], st, st', tr, h => by
      rw [runProjectsM_nil] at h
      have := @ok_inj_of_pure_eq _ st _ _ (by rw [← h]; rfl)
      rw [← this]
      refine ⟨by simp, by simp, ?_⟩
      by_cases hs : args.sqmreads <;> simp [hs]
  | p :: ps, st, st', tr, h => by
      obtain ⟨st₁, _, _, hp, hrest, _⟩ := runProjectsM_cons_ok h
      obtain ⟨-, dc, txr, _, ko, _, cog, _, pf, _, _, _, _, _, -, -, hko, hcog, hpf, -, -, hst⟩ :=
        processProjectM_ok hp
      have hkoF := parseFunctional_ok_flag hko
      have hcogF := parseFunctional_ok_flag hcog
      have hpfF := parsePFAM_ok_flag hpf
      obtain ⟨ih1, ih2, ih3⟩ := runProjectsM_flags hrest
      have hst1K : st₁.hasKEGG = ko.flag := by rw [hst]
      have hst1C : st₁.hasCOG = cog.flag := by rw [hst]
      have hst1P : st₁.hasPFAM = pf.flag := by rw [hst]
      refine ⟨?_, ?_, ?_⟩
      · rw [ih1, hst1K, hkoF]
        simp [Bool.and_assoc, String.append_assoc]
      · rw [ih2, hst1C, hcogF]
        simp [Bool.and_assoc, String.append_assoc]
      · rw [ih3, hst1P, hpfF]
        by_cases hs : args.sqmreads
        · simp [hs]
        · simp only [hs, if_false, Bool.false_eq_true]
          simp [Bool.and_assoc, String.append_assoc]

/-! ## Emission lemmas -/

theorem emapM_ok_mem {α β : Type} {f : α → Except String β} :
    ∀ {l : List α} {out : List β}, emapM f l = Except.ok out →
      ∀ b ∈ out, ∃ a ∈ l, f a = Except.ok b
  | [], out, h, b, hb => by
      unfold emapM at h
      cases h
      simp at hb
  | a :: rest, out, h, b, hb => by
      unfold emapM at h
      cases hfa : f a with
      | error e => rw [hfa] at h; simp at h
      | ok b0 =>
          rw [hfa] at h
          cases hrest : emapM f rest with
          | error e => rw [hrest] at h; simp at h
          | ok bs =>
              rw [hrest] at h
              simp only at h
              cases h
              rcases List.mem_cons.mp hb with he | hm
              · exact ⟨a, List.mem_cons_self a rest, he ▸ hfa⟩
              · obtain ⟨a', ha', he'⟩ := emapM_ok_mem hrest b hm
                exact ⟨a', List.mem_cons_of_mem a ha', he'⟩

theorem wfdE_ok {pfx : String} {w : WriteSpec} {nt : String × Table}
    (h : wfdE pfx w = Except.ok nt) :
    nt.1 = pfx ++ w.fname ∧ write_feature_dict w.cols w.dict = some nt.2 ∧
      nt.2.samples = w.cols := by
  unfold wfdE at h
  cases hw : write_feature_dict w.cols w.dict with
  | none => rw [hw] at h; simp at h
  | some t =>
      rw [hw] at h
      cases h
      refine ⟨rfl, ?_, ?_⟩
      · rfl
      · rw [write_feature_dict_eq _ _ _ hw]

theorem stdWriteSpecs_cols {args : Args} {st : CombState} {w : WriteSpec}
    (hw : w ∈ stdWriteSpecs args st) : w.cols = st.sampleNames := by
  unfold stdWriteSpecs at hw
  obtain ⟨dn, -, he⟩ := List.mem_map.mp hw
  rw [← he]

theorem customWriteSpecs_mem {st : CombState} {w : WriteSpec}
    (hw : w ∈ customWriteSpecs st) :
    ∃ mp ∈ st.customFunMethods, ∃ cd ∈ mp.2,
      w = ⟨st.sampleNames.filter (fun s => acontains cd.2 s), cd.2, funFileName mp.1 cd.1⟩ := by
  unfold customWriteSpecs at hw
  obtain ⟨mp, hmp, hw2⟩ := List.mem_flatMap.mp hw
  obtain ⟨cd, hcd, he⟩ := List.mem_map.mp hw2
  exact ⟨mp, hmp, cd, hcd, he.symm⟩

/-! ## Sample-registry invariant: names are unique and all registered in the
`all_superkingdom` map -/

theorem acontains_insertRow (feature : String) :
    ∀ (ss vs : List String) (d : FeatureDict) (s : String),
      acontains d s = true → acontains (insertRow feature ss vs d) s = true
  | [], vs, d, s, h => by simpa [insertRow] using h
  | s₀ :: ss, [], d, s, h => by simpa [insertRow] using h
  | s₀ :: ss, v :: vs, d, s, h =>
      acontains_insertRow feature ss vs _ s (by
        unfold ainsert2
        exact acontains_ainsert_of s₀ _ h)

theorem acontains_foldl_insertRow (samples : List String) :
    ∀ (rows : List (String × List String)) (d : FeatureDict) (s : String),
      acontains d s = true →
      acontains (rows.foldl (fun acc r => insertRow r.1 samples r.2 acc) d) s = true
  | [], d, s, h => h
  | r :: rows, d, s, h =>
      acontains_foldl_insertRow samples rows _ s (acontains_insertRow r.1 samples r.2 d s h)

theorem insertHeaderSamples_none_props (path : String) :
    ∀ (ss : List String) (d : FeatureDict),
      (insertHeaderSamples path ss d).2 = none →
      ss.Nodup ∧ (∀ s ∈ ss, acontains d s = false) ∧
      (∀ s, (acontains d s = true ∨ s ∈ ss) →
        acontains (insertHeaderSamples path ss d).1 s = true)
  | [], d, _ => by
      refine ⟨List.nodup_nil, by simp, fun s hs => ?_⟩
      rcases hs with h | h
      · exact h
      · simp at h
  | s₀ :: rest, d, h => by
      by_cases hc : acontains d s₀ = true
      · rw [show insertHeaderSamples path (s₀ :: rest) d = (d, some (dupMsg path s₀)) by
          simp [insertHeaderSamples, hc]] at h
        simp at h
      · have hc' : acontains d s₀ = false := by simpa using hc
        have hrec : insertHeaderSamples path (s₀ :: rest) d =
            insertHeaderSamples path rest (ainsert d s₀ []) := by
          simp [insertHeaderSamples, hc']
        rw [hrec] at h ⊢
        obtain ⟨hnd, hfresh, hcont⟩ := insertHeaderSamples_none_props path rest (ainsert d s₀ []) h
        refine ⟨?_, ?_, ?_⟩
        · refine List.Nodup.cons (fun hmem => ?_) hnd
          have := hfresh s₀ hmem
          rw [show acontains (ainsert d s₀ []) s₀ = true from by
            simp [acontains, alookup_ainsert_self]] at this
          exact absurd this (by simp)
        · intro s hs
          rcases List.mem_cons.mp hs with he | hm
          · exact he ▸ hc'
          · have := hfresh s hm
            by_cases hss : s = s₀
            · exact hss ▸ hc'
            · rwa [show acontains (ainsert d s₀ []) s = acontains d s from by
                simp [acontains, alookup_ainsert_ne d ([] : SubDict) hss]] at this
        · intro s hs
          rcases hs with hd | hmem
          · exact hcont s (Or.inl (acontains_ainsert_of s₀ [] hd))
          · rcases List.mem_cons.mp hmem with he | hm
            · exact hcont s (Or.inl (he ▸ (by simp [acontains, alookup_ainsert_self])))
            · exact hcont s (Or.inr hm)

theorem parse_table_ok_props {path : String} {t : Table} {d : FeatureDict}
    {r : List String × FeatureDict} (h : parse_table path t d = Except.ok r) :
    r.1 = t.samples ∧ t.samples.Nodup ∧ (∀ s ∈ t.samples, acontains d s = false) ∧
    (∀ s, (acontains d s = true ∨ s ∈ t.samples) → acontains r.2 s = true) := by
  unfold parse_table at h
  rcases hp : insertHeaderSamples path t.samples d with ⟨d', e⟩
  rw [hp] at h
  cases e with
  | some m => simp at h
  | none =>
      cases h
      have hnone : (insertHeaderSamples path t.samples d).2 = none := by rw [hp]
      obtain ⟨hnd, hfresh, hcont⟩ := insertHeaderSamples_none_props path t.samples d hnone
      refine ⟨rfl, hnd, hfresh, fun s hs => ?_⟩
      have hd' : acontains d' s = true := by
        have := hcont s hs
        rwa [hp] at this
      exact acontains_foldl_insertRow t.samples t.rows d' s hd'

/-- Sample-registry invariant carried through the project loop. -/
def sampleInv (st : CombState) : Prop :=
  st.sampleNames.Nodup ∧
    ∀ s ∈ st.sampleNames, acontains st.tax.all_superkingdom s = true

theorem parseAllTax_ok_sk {p : Project} {n : String} {tx : TaxState}
    {r : List String × TaxState} {tr : List Event}
    (h : parseAllTax p n tx = (Except.ok r, tr)) :
    ∃ t, alookup p.tables (n ++ ".superkingdom.allfilter.abund.tsv") = some t ∧
      parse_table (tablePath p (n ++ ".superkingdom.allfilter.abund.tsv")) t
        tx.all_superkingdom = Except.ok (r.1, r.2.all_superkingdom) := by
  unfold parseAllTax at h
  obtain ⟨r0, tr0, trk, h0, hk, _⟩ := bindT_ok h
  obtain ⟨t, ht, hp⟩ := parseIntoM_ok h0
  obtain ⟨a2, _, _, _, hk, _⟩ := bindT_ok hk
  obtain ⟨a3, _, _, _, hk, _⟩ := bindT_ok hk
  obtain ⟨a4, _, _, _, hk, _⟩ := bindT_ok hk
  obtain ⟨a5, _, _, _, hk, _⟩ := bindT_ok hk
  obtain ⟨a6, _, _, _, hk, _⟩ := bindT_ok hk
  obtain ⟨a7, _, _, _, hk, _⟩ := bindT_ok hk
  obtain ⟨a8, _, _, _, hk, _⟩ := bindT_ok hk
  obtain ⟨a9, _, _, _, hk, _⟩ := bindT_ok hk
  obtain ⟨a10, _, _, _, hk, _⟩ := bindT_ok hk
  obtain ⟨a11, _, _, _, hk, _⟩ := bindT_ok hk
  obtain ⟨a12, _, _, _, hk, _⟩ := bindT_ok hk
  obtain ⟨a13, _, _, _, hk, _⟩ := bindT_ok hk
  obtain ⟨a14, _, _, _, hk, _⟩ := bindT_ok hk
  obtain ⟨a15, _, _, _, hk, _⟩ := bindT_ok hk
  obtain ⟨a16, _, _, _, hk, _⟩ := bindT_ok hk
  obtain ⟨a17, _, _, _, hk, _⟩ := bindT_ok hk
  obtain ⟨a18, _, _, _, hk, _⟩ := bindT_ok hk
  obtain ⟨a19, _, _, _, hk, _⟩ := bindT_ok hk
  obtain ⟨a20, _, _, _, hk, _⟩ := bindT_ok hk
  obtain ⟨a21, _, _, _, hk, _⟩ := bindT_ok hk
  have h2 := Except.ok.inj (congrArg Prod.fst hk)
  have hr1 : r.1 = r0.1 := (congrArg Prod.fst h2).symm
  have hrsk : r.2.all_superkingdom = r0.2 := by
    have := (congrArg Prod.snd h2).symm
    rw [this]
  refine ⟨t, ht, ?_⟩
  rw [hr1, hrsk]
  rw [show (r0.1, r0.2) = r0 from rfl]
  exact hp

theorem processProjectM_sampleInv {sq : String} {args : Args} {p : Project}
    {st st' : CombState} {tr : List Event}
    (h : processProjectM sq args p st = (Except.ok st', tr)) (hinv : sampleInv st) :
    sampleInv st' := by
  obtain ⟨-, dc, txr, _, _, _, _, _, _, _, _, _, _, _, -, htx, -, -, -, -, -, hst⟩ :=
    processProjectM_ok h
  obtain ⟨t, ht, hp⟩ := parseAllTax_ok_sk htx
  obtain ⟨hfst, hnd, hfresh, hcont⟩ := parse_table_ok_props hp
  obtain ⟨hinv1, hinv2⟩ := hinv
  have hnewsk : ∀ s ∈ txr.1, acontains st.tax.all_superkingdom s = false := by
    intro s hs
    exact hfresh s (hfst ▸ hs)
  constructor
  · rw [hst]
    refine List.Nodup.append hinv1 (hfst ▸ hnd) ?_
    intro s hs₁ hs₂
    have h1 := hinv2 s hs₁
    have h2 := hnewsk s hs₂
    rw [h1] at h2
    exact absurd h2 (by simp)
  · rw [hst]
    intro s hs
    rcases List.mem_append.mp hs with hm | hm
    · exact hcont s (Or.inl (hinv2 s hm))
    · exact hcont s (Or.inr (hfst ▸ hm))

theorem runProjectsM_sampleInv {sq : String} {args : Args} :
    ∀ {ps : List Project} {st st' : CombState} {tr : List Event},
      runProjectsM sq args ps st = (Except.ok st', tr) → sampleInv st → sampleInv st'
  | [], st, st', tr, h, hinv => by
      rw [runProjectsM_nil] at h
      have := @ok_inj_of_pure_eq _ st _ _ (by rw [← h]; rfl)
      rwa [← this]
  | p :: ps, st, st', tr, h, hinv => by
      obtain ⟨st₁, _, _, hp, hrest, _⟩ := runProjectsM_cons_ok h
      exact runProjectsM_sampleInv hrest (processProjectM_sampleInv hp hinv)

/-- Claim C3: in a successful run the global sample registry is the
concatenation, in project-list order, of each project's header samples (the
order of first encounter; the registry is duplicate-free), every emitted
standard-category table (taxonomic and KO/COG/PFAM) has exactly that column
order, and every emitted custom-method table has that order restricted to
the samples present in the method's feature map. -/
theorem combined_tables_sample_order (sq : String) (args : Args) (ps : List Project)
    (st : CombState) (tr : List Event)
    (hrun : runCombine sq args ps = (Except.ok st, tr)) :
    st.sampleNames = (ps.map skHeader).flatten ∧
    st.sampleNames.Nodup ∧
    (∀ pfx outs, emapM (wfdE pfx) (stdWriteSpecs args st) = Except.ok outs →
        ∀ nt ∈ outs, nt.2.samples = st.sampleNames) ∧
    (∀ pfx outs, emapM (wfdE pfx) (customWriteSpecs st) = Except.ok outs →
        ∀ nt ∈ outs, ∃ mp ∈ st.customFunMethods, ∃ cd ∈ mp.2,
          nt.2.samples = st.sampleNames.filter (fun s => acontains cd.2 s)) := by
  have hrun' : runProjectsM sq args ps (initState args) = (Except.ok st, tr) := hrun
  have h1 := runProjectsM_sampleNames hrun'
  have hinv := runProjectsM_sampleInv hrun' ⟨List.nodup_nil, by simp [initState]⟩
  refine ⟨by simpa [initState] using h1, hinv.1, ?_, ?_⟩
  · intro pfx outs hout nt hnt
    obtain ⟨w, hw, hfa⟩ := emapM_ok_mem hout nt hnt
    rw [(wfdE_ok hfa).2.2, stdWriteSpecs_cols hw]
  · intro pfx outs hout nt hnt
    obtain ⟨w, hw, hfa⟩ := emapM_ok_mem hout nt hnt
    obtain ⟨mp, hmp, cd, hcd, hwe⟩ := customWriteSpecs_mem hw
    refine ⟨mp, hmp, cd, hcd, ?_⟩
    rw [(wfdE_ok hfa).2.2, hwe]

/-! ## Concrete projects used by the witnesses -/

/-- A one-sample, one-feature table file. -/
def oneSampleTable (sample : String) : Table := ⟨[sample], [("Bacteria", ["10"])]⟩

def wRanks : List String :=
  ["superkingdom", "phylum", "class", "order", "family", "genus", "species"]

def wFilts : List String := ["allfilter", "prokfilter", "nofilter"]

/-- The 21 taxonomic table files of a synthetic project. -/
def wTaxTables (projName sample : String) : List (String × Table) :=
  wFilts.flatMap (fun fl => wRanks.map (fun r =>
    (projName ++ "." ++ r ++ "." ++ fl ++ ".abund.tsv", oneSampleTable sample)))

/-- Arguments of a `--sqm-reads` run. -/
def wArgsSqm : Args := ⟨["p3"], none, "out", "combined", false, false, true, false⟩

/-- A reads-based project with its 21 taxonomic tables, a COG table and the
COG names table (no KO tables, so `hasKEGG` is cleared while processing it). -/
def wProjC3 : Project :=
  ⟨"p3", ["p3.out.mappingstat"], true,
   wTaxTables "p3" "S3" ++
     [("p3.COG.abund.tsv", ⟨["S3"], [("C1", ["2"])]⟩),
      ("p3.COG.names.tsv", ⟨["Name"], [("C1", ["cname", "cpath"])]⟩)]⟩

/-- The final state of the witness run (the run succeeds, so this is its
`ok` value). -/
def wStC3 : CombState :=
  ((runCombine "sq" wArgsSqm [wProjC3]).1).toOption.getD (initState wArgsSqm)

/-- Witness for C3: the single-project run succeeds and its registry is the
project's header `["S3"]`, the flattened header concatenation. -/
theorem combined_tables_sample_order_witness :
    runCombine "sq" wArgsSqm [wProjC3] =
      (Except.ok wStC3, (runCombine "sq" wArgsSqm [wProjC3]).2) ∧
    wStC3.sampleNames = ([wProjC3].map skHeader).flatten ∧
    wStC3.sampleNames = ["S3"] := by
  have hrun : runCombine "sq" wArgsSqm [wProjC3] =
      (Except.ok wStC3, (runCombine "sq" wArgsSqm [wProjC3]).2) := by rfl
  refine ⟨hrun, ?_, by rfl⟩
  exact (combined_tables_sample_order "sq" wArgsSqm [wProjC3] wStC3 _ hrun).1

/-! ## Validation aborts the run (C9) -/

theorem runProjectsM_skip_after_invalid {sq : String} {args : Args} {p : Project}
    (h : validMarker args p = false) :
    ∀ (ps₁ ps₂ : List Project) (st : CombState),
      runProjectsM sq args (ps₁ ++ p :: ps₂) st = runProjectsM sq args (ps₁ ++ [p]) st
  | [], ps₂, st => by
      show runProjectsM sq args (p :: ps₂) st = runProjectsM sq args [p] st
      unfold runProjectsM
      rw [processProjectM_invalid h]
      rfl
  | q :: qs, ps₂, st => by
      show runProjectsM sq args (q :: (qs ++ p :: ps₂)) st =
        runProjectsM sq args (q :: (qs ++ [p])) st
      unfold runProjectsM
      rcases hq : processProjectM sq args q st with ⟨r, trq⟩
      cases r with
      | error e => rfl
      | ok st₁ =>
          show bindT (Except.ok st₁, trq) _ = bindT (Except.ok st₁, trq) _
          simp only [bindT]
          rw [runProjectsM_skip_after_invalid h qs ps₂ st₁]

theorem runProjectsM_error_of_invalid {sq : String} {args : Args} {p : Project}
    (h : validMarker args p = false) :
    ∀ (ps₁ ps₂ : List Project) (st : CombState),
      ∃ e, (runProjectsM sq args (ps₁ ++ p :: ps₂) st).1 = Except.error e
  | [], ps₂, st => by
      refine ⟨invalidMsg p.path, ?_⟩
      show (runProjectsM sq args (p :: ps₂) st).1 = _
      unfold runProjectsM
      rw [processProjectM_invalid h]
      rfl
  | q :: qs, ps₂, st => by
      show ∃ e, (runProjectsM sq args (q :: (qs ++ p :: ps₂)) st).1 = Except.error e
      unfold runProjectsM
      rcases hq : processProjectM sq args q st with ⟨r, trq⟩
      cases r with
      | error e => exact ⟨e, rfl⟩
      | ok st₁ =>
          obtain ⟨e, he⟩ := runProjectsM_error_of_invalid h qs ps₂ st₁
          refine ⟨e, ?_⟩
          show (bindT (Except.ok st₁, trq) _).1 = Except.error e
          simp only [bindT]
          exact he

/-- Claim C9: a standard-mode project is valid iff its directory contains
`SqueezeMeta_conf.pl`, a reads-mode project iff it contains the
`{basename}.out.mappingstat` file; when the marker is missing, the project
iteration raises the invalid-project exception before doing anything (empty
trace), the whole run ends in an error, and the projects after the invalid
one are never processed (the run equals the run truncated at the invalid
project). -/
theorem project_validation_aborts_run (sq : String) (args : Args) (p : Project) :
    (validMarker args p =
      (if args.sqmreads then p.rootFiles.contains (projNameOf p.path ++ ".out.mappingstat")
       else p.rootFiles.contains "SqueezeMeta_conf.pl")) ∧
    (validMarker args p = false →
      (∀ st, processProjectM sq args p st = (Except.error (invalidMsg p.path), [])) ∧
      ∀ ps₁ ps₂ st,
        runProjectsM sq args (ps₁ ++ p :: ps₂) st = runProjectsM sq args (ps₁ ++ [p]) st ∧
        ∃ e, (runProjectsM sq args (ps₁ ++ p :: ps₂) st).1 = Except.error e) := by
  constructor
  · unfold validMarker
    cases hs : args.sqmreads <;> simp
  · intro h
    exact ⟨fun st => processProjectM_invalid h,
      fun ps₁ ps₂ st => ⟨runProjectsM_skip_after_invalid h ps₁ ps₂ st,
        runProjectsM_error_of_invalid h ps₁ ps₂ st⟩⟩

/-- An invalid reads-mode project: no `bad.out.mappingstat` in its root. -/
def wProjBad : Project := ⟨"bad", [], true, []⟩

/-- Witness for C9 at a concrete invalid project: the marker is absent, the
iteration errors with an empty trace, and a run with a later project equals
the truncated run. -/
theorem project_validation_aborts_run_witness :
    validMarker wArgsSqm wProjBad = false ∧
    processProjectM "sq" wArgsSqm wProjBad (initState wArgsSqm) =
      (Except.error (invalidMsg "bad"), []) ∧
    runProjectsM "sq" wArgsSqm [wProjBad, wProjC3] (initState wArgsSqm) =
      runProjectsM "sq" wArgsSqm [wProjBad] (initState wArgsSqm) := by
  have h : validMarker wArgsSqm wProjBad = false := by rfl
  have hmain := (project_validation_aborts_run "sq" wArgsSqm wProjBad).2 h
  exact ⟨h, hmain.1 (initState wArgsSqm),
    (hmain.2 [] [wProjC3] (initState wArgsSqm)).1⟩

/-! ## Table generation precedes parsing (C8) -/

/-- Claim C8: for a valid project whose `{proj}.COG.abund.tsv` check table is
absent, the very first external action of the project iteration is the
`call` of the table-generation collaborator — every file-parsing event comes
after it — and the command forwards `--trusted-functions` exactly when the
flag is set and `--ignore_unclassified` exactly when the flag is set in
standard (non reads) mode. -/
theorem table_generation_invoked_before_parsing (sq : String) (args : Args) (p : Project)
    (st : CombState) (hval : validMarker args p = true) (hpre : p.preHasCOGAbund = false) :
    (∃ rest, (processProjectM sq args p st).2 =
        Event.gen (genCommand sq args p.path) :: rest) ∧
    ("--trusted-functions" ∈ genFlagArgs args ↔ args.trusted_functions = true) ∧
    ("--ignore_unclassified" ∈ genFlagArgs args ↔
      (args.sqmreads = false ∧ args.ignore_unclassified = true)) := by
  refine ⟨?_, ?_, ?_⟩
  · unfold processProjectM
    rw [hval]
    simp only [Bool.not_true, Bool.false_eq_true, if_false]
    rw [show genStep sq args p = emit (Event.gen (genCommand sq args p.path)) from by
      unfold genStep; rw [hpre]; rfl]
    exact ⟨_, rfl⟩
  · cases ht : args.trusted_functions <;>
      cases hs : args.sqmreads <;>
      cases hi : args.ignore_unclassified <;>
      simp [genFlagArgs, ht, hs, hi]
  · cases ht : args.trusted_functions <;>
      cases hs : args.sqmreads <;>
      cases hi : args.ignore_unclassified <;>
      simp [genFlagArgs, ht, hs, hi]

/-- A valid reads-mode project with no tables at all and no pre-existing
check table: generation is triggered, then the first parse fails. -/
def wProjGen : Project := ⟨"p4", ["p4.out.mappingstat"], false, []⟩

/-- Witness for C8: on a concrete project without the check table, the first
event of the iteration is the generation call, with the right flags. -/
theorem table_generation_invoked_before_parsing_witness :
    validMarker wArgsSqm wProjGen = true ∧
    wProjGen.preHasCOGAbund = false ∧
    (∃ rest, (processProjectM "sq" wArgsSqm wProjGen (initState wArgsSqm)).2 =
        Event.gen (genCommand "sq" wArgsSqm "p4") :: rest) := by
  have h1 : validMarker wArgsSqm wProjGen = true := by rfl
  have h2 : wProjGen.preHasCOGAbund = false := rfl
  exact ⟨h1, h2,
    (table_generation_invoked_before_parsing "sq" wArgsSqm wProjGen
      (initState wArgsSqm) h1 h2).1⟩

/-! ## `--paths-file` precedence (C10) -/

/-- Claim C10: when `--paths-file` is supplied, the project list is exactly
the stripped non-blank lines of that file, and the positional path arguments
are ignored entirely (the result does not depend on them, and no merging
occurs). -/
theorem paths_file_overrides_positional (args : Args) (lines : List String)
    (h : args.paths_file = some lines) :
    resolveProjPaths args =
      Except.ok (lines.filterMap
        (fun l => if stripWS l ≠ "" then some (stripWS l) else none)) ∧
    ∀ ps : List String, resolveProjPaths { args with project_paths := ps } =
      resolveProjPaths args := by
  constructor
  · unfold resolveProjPaths
    rw [h]
  · intro ps
    unfold resolveProjPaths
    simp only [h]

/-- Witness for C10: positional paths `["x"]` are ignored in favour of the
file's stripped non-blank lines. -/
theorem paths_file_overrides_positional_witness :
    (⟨["x"], some ["  a ", "", "b", "   "], "o", "c", false, false, false, false⟩ :
        Args).paths_file = some ["  a ", "", "b", "   "] ∧
    resolveProjPaths ⟨["x"], some ["  a ", "", "b", "   "], "o", "c", false, false, false, false⟩ =
      Except.ok ["a", "b"] ∧
    resolveProjPaths ⟨[], some ["  a ", "", "b", "   "], "o", "c", false, false, false, false⟩ =
      resolveProjPaths ⟨["x"], some ["  a ", "", "b", "   "], "o", "c", false, false, false, false⟩ := by
  have h := paths_file_overrides_positional
    ⟨["x"], some ["  a ", "", "b", "   "], "o", "c", false, false, false, false⟩
    ["  a ", "", "b", "   "] rfl
  refine ⟨rfl, ?_, ?_⟩
  · rw [h.1]
    rfl
  · exact h.2 []

/-! ## Custom method present in an earlier project only (C6) -/

/-- A reads-based project `p1` carrying a custom `MyMethod` abund table and
its names table. -/
def wProjMy : Project :=
  ⟨"p1", ["p1.out.mappingstat"], false,
   wTaxTables "p1" "S1" ++
     [("p1.MyMethod.abund.tsv", ⟨["S1"], [("F1", ["5"])]⟩),
      ("p1.MyMethod.names.tsv", ⟨["Name"], [("F1", ["Feature one"])]⟩)]⟩

/-- A reads-based project `p2` with no `MyMethod` files at all. -/
def wProjNoMy : Project := ⟨"p2", ["p2.out.mappingstat"], false, wTaxTables "p2" "S2"⟩

/-- Final state of the run in the order the spec describes (method discovered
in the later project): that run succeeds. -/
def wStC6 : CombState :=
  ((runCombine "sq" wArgsSqm [wProjNoMy, wProjMy]).1).toOption.getD (initState wArgsSqm)

/-- Outputs of that successful run. -/
def wOutsC6 : List (String × Table) :=
  (emitOutputs wArgsSqm (outPfx wArgsSqm) wStC6).toOption.getD []

/-- Claim C6 (code bug): when the project carrying the custom method comes
first and a later project lacks it, the run does not succeed — the names
loop opens `p2.MyMethod.names.tsv` unconditionally for every method
registered so far and crashes with `FileNotFoundError` — although the
emission code itself anticipates methods that not all projects used
(`custom_sampleNames` is filtered per method, and the reverse project order
does succeed and emits the method's table with only the samples of the
project that had it). -/
theorem custom_method_missing_in_later_project_aborts :
    (runCombine "sq" wArgsSqm [wProjMy, wProjNoMy]).1 =
      Except.error "FileNotFoundError: p2/results/tables/p2.MyMethod.names.tsv" ∧
    (runCombine "sq" wArgsSqm [wProjNoMy, wProjMy]).1 = Except.ok wStC6 ∧
    emitOutputs wArgsSqm (outPfx wArgsSqm) wStC6 = Except.ok wOutsC6 ∧
    ("out/combined.MyMethod.abund.tsv", (⟨["S1"], [("F1", ["5"])]⟩ : Table)) ∈ wOutsC6 := by
  refine ⟨by rfl, by rfl, by rfl, ?_⟩
  decide

/-! ## Custom-method discovery rule and registration persistence (C7) -/

theorem alookup2_ainsert2_self {α : Type} (d : List (String × List (String × α)))
    (k1 k2 : String) (v : α) : alookup2 (ainsert2 d k1 k2 v) k1 k2 = some v := by
  unfold ainsert2 alookup2
  rw [alookup_ainsert_self]
  simp [alookup_ainsert_self]

theorem acontains_ainsert2_of {α : Type} {d : List (String × List (String × α))}
    {m : String} (k1 k2 : String) (v : α) (h : acontains d m = true) :
    acontains (ainsert2 d k1 k2 v) m = true :=
  acontains_ainsert_of k1 _ h

theorem acontains_ainsert_self {α : Type} (d : List (String × α)) (k : String) (v : α) :
    acontains (ainsert d k v) k = true := by
  simp [acontains, alookup_ainsert_self]

theorem alookup2_registerCT_self (ct : CustomThis) (m c f : String) :
    alookup2 (registerCT ct m c f) m c = some f :=
  alookup2_ainsert2_self _ m c f

theorem acontains_registerCFM_self (cfm : CustomDict) (m c : String) :
    acontains (registerCFM cfm m c) m = true := by
  unfold registerCFM
  have h0 : acontains (if acontains cfm m then cfm else ainsert cfm m []) m = true := by
    by_cases hac : acontains cfm m = true
    · rw [if_pos hac]; exact hac
    · rw [if_neg (by simpa using hac)]
      exact acontains_ainsert_self _ m []
  by_cases hin : acontains
      ((alookup (if acontains cfm m then cfm else ainsert cfm m []) m).getD []) c = true
  · simpa [hin] using h0
  · have hf : acontains
        ((alookup (if acontains cfm m then cfm else ainsert cfm m []) m).getD []) c = false := by
      simpa using hin
    simp only [hf, Bool.false_eq_true, if_false]
    exact acontains_ainsert2_of m c [] h0

theorem acontains_registerCFM_of {cfm : CustomDict} {m' : String} (m c : String)
    (h : acontains cfm m' = true) : acontains (registerCFM cfm m c) m' = true := by
  unfold registerCFM
  have h0 : acontains (if acontains cfm m then cfm else ainsert cfm m []) m' = true := by
    by_cases hac : acontains cfm m = true
    · rw [if_pos hac]; exact h
    · rw [if_neg (by simpa using hac)]
      exact acontains_ainsert_of m [] h
  by_cases hin : acontains
      ((alookup (if acontains cfm m then cfm else ainsert cfm m []) m).getD []) c = true
  · simpa [hin] using h0
  · have hf : acontains
        ((alookup (if acontains cfm m then cfm else ainsert cfm m []) m).getD []) c = false := by
      simpa using hin
    simp only [hf, Bool.false_eq_true, if_false]
    exact acontains_ainsert2_of m c [] h0

/-- The register branch of one discovery step. -/
theorem discoverStep_eq_register {acc : CustomThis × CustomDict} {f : String}
    (h3 : 3 ≤ (pySplit '.' f).length)
    (hcm : (pySplit '.' f).getD ((pySplit '.' f).length - 2) "" ∈ countsNames ∧
      (pySplit '.' f).getD ((pySplit '.' f).length - 3) "" ∉ reservedNames) :
    discoverStep acc f = Except.ok
      (registerCT acc.1 ((pySplit '.' f).getD ((pySplit '.' f).length - 3) "")
        ((pySplit '.' f).getD ((pySplit '.' f).length - 2) "") f,
       registerCFM acc.2 ((pySplit '.' f).getD ((pySplit '.' f).length - 3) "")
        ((pySplit '.' f).getD ((pySplit '.' f).length - 2) "")) := by
  unfold discoverStep
  rw [if_pos h3, if_pos hcm]

/-- The skip branch of one discovery step. -/
theorem discoverStep_skip {acc : CustomThis × CustomDict} {f : String}
    (h3 : 3 ≤ (pySplit '.' f).length)
    (hcm : ¬((pySplit '.' f).getD ((pySplit '.' f).length - 2) "" ∈ countsNames ∧
      (pySplit '.' f).getD ((pySplit '.' f).length - 3) "" ∉ reservedNames)) :
    discoverStep acc f = Except.ok acc := by
  unfold discoverStep
  rw [if_pos h3, if_neg hcm]

/-- The `IndexError` branch of one discovery step. -/
theorem discoverStep_short {acc : CustomThis × CustomDict} {f : String}
    (h3 : (pySplit '.' f).length < 3) :
    discoverStep acc f = Except.error "IndexError: list index out of range" := by
  unfold discoverStep
  rw [if_neg (by omega)]

/-- A discovery step never removes a registered method. -/
theorem discoverStep_mono {acc acc' : CustomThis × CustomDict} {f : String}
    (h : discoverStep acc f = Except.ok acc') {m : String}
    (hm : acontains acc.2 m = true) : acontains acc'.2 m = true := by
  by_cases h3 : 3 ≤ (pySplit '.' f).length
  · by_cases hcm : (pySplit '.' f).getD ((pySplit '.' f).length - 2) "" ∈ countsNames ∧
        (pySplit '.' f).getD ((pySplit '.' f).length - 3) "" ∉ reservedNames
    · rw [discoverStep_eq_register h3 hcm] at h
      cases h
      exact acontains_registerCFM_of _ _ hm
    · rw [discoverStep_skip h3 hcm] at h
      cases h
      exact hm
  · rw [discoverStep_short (by omega)] at h
    simp at h

theorem discoverLoop_mono :
    ∀ {files : List String} {acc acc' : CustomThis × CustomDict},
      discoverLoop files acc = Except.ok acc' →
      ∀ {m : String}, acontains acc.2 m = true → acontains acc'.2 m = true
  | [], acc, acc', h, m, hm => by
      unfold discoverLoop at h
      cases h
      exact hm
  | f :: rest, acc, acc', h, m, hm => by
      unfold discoverLoop at h
      cases hstep : discoverStep acc f with
      | error e => rw [hstep] at h; simp at h
      | ok acc₁ =>
          rw [hstep] at h
          exact discoverLoop_mono h (discoverStep_mono hstep hm)

theorem discoverLoop_registers :
    ∀ {files : List String} {acc acc' : CustomThis × CustomDict},
      discoverLoop files acc = Except.ok acc' →
      ∀ {f : String}, f ∈ files →
        3 ≤ (pySplit '.' f).length →
        (pySplit '.' f).getD ((pySplit '.' f).length - 2) "" ∈ countsNames →
        (pySplit '.' f).getD ((pySplit '.' f).length - 3) "" ∉ reservedNames →
        acontains acc'.2 ((pySplit '.' f).getD ((pySplit '.' f).length - 3) "") = true
  | [], acc, acc', h, f, hf, _, _, _ => by simp at hf
  | g :: rest, acc, acc', h, f, hf, h3, hc, hm => by
      unfold discoverLoop at h
      cases hstep : discoverStep acc g with
      | error e => rw [hstep] at h; simp at h
      | ok acc₁ =>
          rw [hstep] at h
          rcases List.mem_cons.mp hf with he | hmem
          · subst he
            have hs := @discoverStep_eq_register acc _ h3 ⟨hc, hm⟩
            rw [hstep] at hs
            cases hs
            exact discoverLoop_mono h (acontains_registerCFM_self _ _ _)
          · exact discoverLoop_registers h hmem h3 hc hm

theorem parseCustomCounts_mono {p : Project} {method : String} :
    ∀ {cmaps : List (String × String)} {cfm cfm' : CustomDict} {tr : List Event},
      parseCustomCounts p method cmaps cfm = (Except.ok cfm', tr) →
      ∀ {m : String}, acontains cfm m = true → acontains cfm' m = true
  | [], cfm, cfm', tr, h, m, hm => by
      unfold parseCustomCounts at h
      have := ok_inj_of_pure_eq h
      rwa [← this]
  | (counts, f) :: rest, cfm, cfm', tr, h, m, hm => by
      unfold parseCustomCounts at h
      obtain ⟨r, _, _, _, hk, _⟩ := bindT_ok h
      exact parseCustomCounts_mono hk (acontains_ainsert2_of method counts r.2 hm)

theorem parseCustomTables_mono {p : Project} :
    ∀ {ct : CustomThis} {cfm cfm' : CustomDict} {tr : List Event},
      parseCustomTables p ct cfm = (Except.ok cfm', tr) →
      ∀ {m : String}, acontains cfm m = true → acontains cfm' m = true
  | [], cfm, cfm', tr, h, m, hm => by
      unfold parseCustomTables at h
      have := ok_inj_of_pure_eq h
      rwa [← this]
  | (method, cmaps) :: rest, cfm, cfm', tr, h, m, hm => by
      unfold parseCustomTables at h
      obtain ⟨cfm₁, _, _, hc, hk, _⟩ := bindT_ok h
      exact parseCustomTables_mono hk (parseCustomCounts_mono hc hm)

theorem processProjectM_registers {sq : String} {args : Args} {p : Project}
    {st st' : CombState} {tr : List Event}
    (h : processProjectM sq args p st = (Except.ok st', tr)) :
    (∀ {m : String}, acontains st.customFunMethods m = true →
      acontains st'.customFunMethods m = true) ∧
    (∀ {f : String}, f ∈ listing p →
      3 ≤ (pySplit '.' f).length →
      (pySplit '.' f).getD ((pySplit '.' f).length - 2) "" ∈ countsNames →
      (pySplit '.' f).getD ((pySplit '.' f).length - 3) "" ∉ reservedNames →
      acontains st'.customFunMethods ((pySplit '.' f).getD ((pySplit '.' f).length - 3) "") = true) := by
  obtain ⟨-, dc, txr, _, ko, _, cog, _, pf, _, cfm, _, ni, _, hdc, -, -, -, -, hcfm, -, hst⟩ :=
    processProjectM_ok h
  have hstc : st'.customFunMethods = cfm := by rw [hst]
  constructor
  · intro m hm
    rw [hstc]
    exact parseCustomTables_mono hcfm (discoverLoop_mono hdc hm)
  · intro f hf h3 hc hm
    rw [hstc]
    exact parseCustomTables_mono hcfm (discoverLoop_registers hdc hf h3 hc hm)

theorem runProjectsM_registers {sq : String} {args : Args} :
    ∀ {ps : List Project} {st st' : CombState} {tr : List Event},
      runProjectsM sq args ps st = (Except.ok st', tr) →
      (∀ {m : String}, acontains st.customFunMethods m = true →
        acontains st'.customFunMethods m = true) ∧
      (∀ p ∈ ps, ∀ f ∈ listing p,
        3 ≤ (pySplit '.' f).length →
        (pySplit '.' f).getD ((pySplit '.' f).length - 2) "" ∈ countsNames →
        (pySplit '.' f).getD ((pySplit '.' f).length - 3) "" ∉ reservedNames →
        acontains st'.customFunMethods ((pySplit '.' f).getD ((pySplit '.' f).length - 3) "") = true)
  | [], st, st', tr, h => by
      rw [runProjectsM_nil] at h
      have := @ok_inj_of_pure_eq _ st _ _ (by rw [← h]; rfl)
      refine ⟨fun hm => by rwa [← this], by simp⟩
  | p :: ps, st, st', tr, h => by
      obtain ⟨st₁, _, _, hp, hrest, _⟩ := runProjectsM_cons_ok h
      obtain ⟨hmono₁, hreg₁⟩ := processProjectM_registers hp
      obtain ⟨hmono₂, hreg₂⟩ := runProjectsM_registers hrest
      constructor
      · exact fun hm => hmono₂ (hmono₁ hm)
      · intro q hq f hf h3 hc hm
        rcases List.mem_cons.mp hq with he | hmem
        · subst he
          exact hmono₂ (hreg₁ hf h3 hc hm)
        · exact hreg₂ q hmem f hf h3 hc hm

/-- Claim C7 (amended): for every table-directory filename with at least
three dot-separated fields, discovery takes `method = fields[-3]` and
`counts = fields[-2]` and registers the pair exactly when the metric suffix
is recognised and the method is not reserved (otherwise the step leaves the
registries unchanged); a filename with fewer than three fields makes the
step raise an `IndexError` instead of being skipped; and a method registered
while processing any project of a successful run is still registered in the
final state. -/
theorem custom_method_discovery_rule :
    (∀ (acc : CustomThis × CustomDict) (f : String),
      3 ≤ (pySplit '.' f).length →
      ((pySplit '.' f).getD ((pySplit '.' f).length - 2) "" ∈ countsNames ∧
          (pySplit '.' f).getD ((pySplit '.' f).length - 3) "" ∉ reservedNames →
        ∃ acc', discoverStep acc f = Except.ok acc' ∧
          alookup2 acc'.1 ((pySplit '.' f).getD ((pySplit '.' f).length - 3) "")
            ((pySplit '.' f).getD ((pySplit '.' f).length - 2) "") = some f ∧
          acontains acc'.2 ((pySplit '.' f).getD ((pySplit '.' f).length - 3) "") = true) ∧
      (¬((pySplit '.' f).getD ((pySplit '.' f).length - 2) "" ∈ countsNames ∧
          (pySplit '.' f).getD ((pySplit '.' f).length - 3) "" ∉ reservedNames) →
        discoverStep acc f = Except.ok acc)) ∧
    (∀ (acc : CustomThis × CustomDict) (f : String),
      (pySplit '.' f).length < 3 →
      discoverStep acc f = Except.error "IndexError: list index out of range") ∧
    (∀ (sq : String) (args : Args) (ps : List Project) (st : CombState) (tr : List Event),
      runCombine sq args ps = (Except.ok st, tr) →
      ∀ p ∈ ps, ∀ f ∈ listing p,
        3 ≤ (pySplit '.' f).length →
        (pySplit '.' f).getD ((pySplit '.' f).length - 2) "" ∈ countsNames →
        (pySplit '.' f).getD ((pySplit '.' f).length - 3) "" ∉ reservedNames →
        acontains st.customFunMethods
          ((pySplit '.' f).getD ((pySplit '.' f).length - 3) "") = true) := by
  refine ⟨?_, fun acc f h3 => discoverStep_short h3, ?_⟩
  · intro acc f h3
    constructor
    · intro hcm
      exact ⟨_, discoverStep_eq_register h3 hcm,
        alookup2_registerCT_self _ _ _ _, acontains_registerCFM_self _ _ _⟩
    · intro hcm
      exact discoverStep_skip h3 hcm
  · intro sq args ps st tr hrun p hp f hf h3 hc hm
    exact (runProjectsM_registers hrun).2 p hp f hf h3 hc hm

/-- Counterexample for C7 as stated: a filename with fewer than three
dot-separated fields is not skipped — discovery aborts with an
`IndexError` (Python evaluates `fields[-3]` before any filtering). -/
theorem discovery_short_filename_index_error :
    discoverCustom ["README"] [] =
      Except.error "IndexError: list index out of range" := by rfl

/-- Witness for C7 at a concrete filename `x.MyMethod.abund.tsv`: the pair
`(MyMethod, abund)` is registered. -/
theorem custom_method_discovery_rule_witness :
    3 ≤ (pySplit '.' "x.MyMethod.abund.tsv").length ∧
    (∃ acc', discoverStep ([], []) "x.MyMethod.abund.tsv" = Except.ok acc' ∧
      alookup2 acc'.1 "MyMethod" "abund" = some "x.MyMethod.abund.tsv" ∧
      acontains acc'.2 "MyMethod" = true) := by
  refine ⟨by decide, ?_⟩
  have h := (custom_method_discovery_rule.1 ([], []) "x.MyMethod.abund.tsv" (by decide)).1
    (by decide)
  exact h

/-! ## String-append inequalities for output file names (C5) -/

theorem str_append_inj {m₁ m₂ s₁ s₂ : String} (h : m₁ ++ s₁ = m₂ ++ s₂)
    (hl : s₁.length = s₂.length) : m₁ = m₂ ∧ s₁ = s₂ := by
  have hd : m₁.data ++ s₁.data = m₂.data ++ s₂.data := by
    have := congrArg String.data h
    rwa [String.data_append, String.data_append] at this
  have h2 := List.append_inj' hd hl
  exact ⟨congrArg String.mk h2.1, congrArg String.mk h2.2⟩

theorem append_fixed_ne {s t : String} (k : Nat) (hk1 : k ≤ s.length) (hk2 : k ≤ t.length)
    (hne : s.data.reverse.take k ≠ t.data.reverse.take k) :
    ∀ m M : String, m ++ s ≠ M ++ t := by
  intro m M h
  have hd : m.data ++ s.data = M.data ++ t.data := by
    have := congrArg String.data h
    rwa [String.data_append, String.data_append] at this
  have hr : s.data.reverse ++ m.data.reverse = t.data.reverse ++ M.data.reverse := by
    have := congrArg List.reverse hd
    rwa [List.reverse_append, List.reverse_append] at this
  have ht := congrArg (List.take k) hr
  rw [List.take_append_of_le_length (by rw [List.length_reverse]; exact hk1),
    List.take_append_of_le_length (by rw [List.length_reverse]; exact hk2)] at ht
  exact hne ht

theorem pfx_append_ne (pfx : String) {a b : String} (h : a ≠ b) : pfx ++ a ≠ pfx ++ b := by
  intro he
  apply h
  have := congrArg String.data he
  rw [String.data_append, String.data_append] at this
  exact congrArg String.mk (List.append_cancel_left this)

/-- The four per-category output-name suffixes. -/
def catSuffixes : List String := [".abund.tsv", ".copyNumber.tsv", ".tpm.tsv", ".names.tsv"]

/-- The four output names of a functional category, relative to the prefix. -/
def relNames (M : String) : List String := catSuffixes.map (fun sfx => M ++ sfx)

theorem funFileName_ne_rel {m c M : String} (hm : m ≠ M) (hc : c ∈ countsNames) :
    ∀ X ∈ relNames M, funFileName m c ≠ X := by
  intro X hX
  obtain ⟨sfx, hsfx, hXe⟩ := List.mem_map.mp hX
  subst hXe
  fin_cases hc <;> fin_cases hsfx <;>
    first
      | exact fun h => hm (str_append_inj h rfl).1
      | exact append_fixed_ne 5 (by decide) (by decide) (by decide) m M

theorem namesFileName_ne_rel {m M : String} (hm : m ≠ M) :
    ∀ X ∈ relNames M, namesFileName m ≠ X := by
  intro X hX
  obtain ⟨sfx, hsfx, hXe⟩ := List.mem_map.mp hX
  subst hXe
  fin_cases hsfx <;>
    first
      | exact fun h => hm (str_append_inj h rfl).1
      | exact append_fixed_ne 5 (by decide) (by decide) (by decide) m M

/-! ## Discovered methods are never reserved and their metrics are always
recognised -/

/-- Invariant of the two custom registries: no reserved method key, and
every metric key is one of the recognised metric suffixes. -/
def goodDict2 {α : Type} (d : List (String × List (String × α))) : Prop :=
  ∀ mc ∈ d, mc.1 ∉ reservedNames ∧ ∀ cd ∈ mc.2, cd.1 ∈ countsNames

theorem alookup_mem {α : Type} :
    ∀ {d : List (String × α)} {k : String} {v : α}, alookup d k = some v → (k, v) ∈ d
  | [], k, v, h => by simp [alookup] at h
  | (k', v') :: rest, k, v, h => by
      unfold alookup at h
      by_cases he : k' = k
      · rw [if_pos he] at h
        cases h
        subst he
        exact List.mem_cons_self _ _
      · rw [if_neg he] at h
        exact List.mem_cons_of_mem _ (alookup_mem h)

theorem mem_ainsert {α : Type} :
    ∀ {d : List (String × α)} {k : String} {v : α} {x : String × α},
      x ∈ ainsert d k v → x = (k, v) ∨ x ∈ d
  | [], k, v, x, h => by
      unfold ainsert at h
      simpa using h
  | (k', v') :: rest, k, v, x, h => by
      unfold ainsert at h
      by_cases he : k' = k
      · rw [if_pos he] at h
        rcases List.mem_cons.mp h with h1 | h1
        · exact Or.inl h1
        · exact Or.inr (List.mem_cons_of_mem _ h1)
      · rw [if_neg he] at h
        rcases List.mem_cons.mp h with h1 | h1
        · exact Or.inr (h1 ▸ List.mem_cons_self _ _)
        · rcases mem_ainsert h1 with h2 | h2
          · exact Or.inl h2
          · exact Or.inr (List.mem_cons_of_mem _ h2)

theorem goodDict2_ainsert_empty {α : Type} {d : List (String × List (String × α))}
    {m : String} (hg : goodDict2 d) (hm : m ∉ reservedNames) :
    goodDict2 (ainsert d m []) := by
  intro mc hmc
  rcases mem_ainsert hmc with he | hmem
  · subst he
    exact ⟨hm, by simp⟩
  · exact hg mc hmem

theorem goodDict2_ainsert2 {α : Type} {d : List (String × List (String × α))}
    {m c : String} (v : α) (hg : goodDict2 d) (hm : m ∉ reservedNames)
    (hc : c ∈ countsNames) : goodDict2 (ainsert2 d m c v) := by
  intro mc hmc
  rcases mem_ainsert hmc with he | hmem
  · subst he
    refine ⟨hm, ?_⟩
    intro cd hcd
    rcases mem_ainsert hcd with he2 | hmem2
    · subst he2; exact hc
    · cases hl : alookup d m with
      | none => rw [hl] at hmem2; simp at hmem2
      | some mm =>
          rw [hl] at hmem2
          exact (hg (m, mm) (alookup_mem hl)).2 cd hmem2
  · exact hg mc hmem

theorem goodDict2_registerCT {ct : CustomThis} {m c f : String}
    (hg : goodDict2 ct) (hm : m ∉ reservedNames) (hc : c ∈ countsNames) :
    goodDict2 (registerCT ct m c f) := by
  unfold registerCT
  by_cases hac : acontains ct m = true
  · rw [if_pos hac]
    exact goodDict2_ainsert2 f hg hm hc
  · rw [if_neg (by simpa using hac)]
    exact goodDict2_ainsert2 f (goodDict2_ainsert_empty hg hm) hm hc

theorem goodDict2_registerCFM {cfm : CustomDict} {m c : String}
    (hg : goodDict2 cfm) (hm : m ∉ reservedNames) (hc : c ∈ countsNames) :
    goodDict2 (registerCFM cfm m c) := by
  unfold registerCFM
  have hg0 : goodDict2 (if acontains cfm m then cfm else ainsert cfm m []) := by
    by_cases hac : acontains cfm m = true
    · rwa [if_pos hac]
    · rw [if_neg (by simpa using hac)]
      exact goodDict2_ainsert_empty hg hm
  by_cases hin : acontains
      ((alookup (if acontains cfm m then cfm else ainsert cfm m []) m).getD []) c = true
  · simpa [hin] using hg0
  · have hf : acontains
        ((alookup (if acontains cfm m then cfm else ainsert cfm m []) m).getD []) c = false := by
      simpa using hin
    simp only [hf, Bool.false_eq_true, if_false]
    exact goodDict2_ainsert2 [] hg0 hm hc

theorem discoverStep_good {acc acc' : CustomThis × CustomDict} {f : String}
    (h : discoverStep acc f = Except.ok acc')
    (hg1 : goodDict2 acc.1) (hg2 : goodDict2 acc.2) :
    goodDict2 acc'.1 ∧ goodDict2 acc'.2 := by
  by_cases h3 : 3 ≤ (pySplit '.' f).length
  · by_cases hcm : (pySplit '.' f).getD ((pySplit '.' f).length - 2) "" ∈ countsNames ∧
        (pySplit '.' f).getD ((pySplit '.' f).length - 3) "" ∉ reservedNames
    · rw [discoverStep_eq_register h3 hcm] at h
      cases h
      exact ⟨goodDict2_registerCT hg1 hcm.2 hcm.1, goodDict2_registerCFM hg2 hcm.2 hcm.1⟩
    · rw [discoverStep_skip h3 hcm] at h
      cases h
      exact ⟨hg1, hg2⟩
  · rw [discoverStep_short (by omega)] at h
    simp at h

theorem discoverLoop_good :
    ∀ {files : List String} {acc acc' : CustomThis × CustomDict},
      discoverLoop files acc = Except.ok acc' →
      goodDict2 acc.1 → goodDict2 acc.2 → goodDict2 acc'.1 ∧ goodDict2 acc'.2
  | [], acc, acc', h, hg1, hg2 => by
      unfold discoverLoop at h
      cases h
      exact ⟨hg1, hg2⟩
  | f :: rest, acc, acc', h, hg1, hg2 => by
      unfold discoverLoop at h
      cases hstep : discoverStep acc f with
      | error e => rw [hstep] at h; simp at h
      | ok acc₁ =>
          rw [hstep] at h
          obtain ⟨hg1', hg2'⟩ := discoverStep_good hstep hg1 hg2
          exact discoverLoop_good h hg1' hg2'

theorem parseCustomCounts_good {p : Project} {method : String} (hm : method ∉ reservedNames) :
    ∀ {cmaps : List (String × String)} {cfm cfm' : CustomDict} {tr : List Event},
      parseCustomCounts p method cmaps cfm = (Except.ok cfm', tr) →
      (∀ cd ∈ cmaps, cd.1 ∈ countsNames) → goodDict2 cfm → goodDict2 cfm'
  | [], cfm, cfm', tr, h, _, hg => by
      unfold parseCustomCounts at h
      have := ok_inj_of_pure_eq h
      rwa [← this]
  | (counts, f) :: rest, cfm, cfm', tr, h, hc, hg => by
      unfold parseCustomCounts at h
      obtain ⟨r, _, _, _, hk, _⟩ := bindT_ok h
      have hcc : counts ∈ countsNames := hc (counts, f) (List.mem_cons_self _ _)
      exact parseCustomCounts_good hm hk (fun cd hcd => hc cd (List.mem_cons_of_mem _ hcd))
        (goodDict2_ainsert2 r.2 hg hm hcc)

theorem parseCustomTables_good {p : Project} :
    ∀ {ct : CustomThis} {cfm cfm' : CustomDict} {tr : List Event},
      parseCustomTables p ct cfm = (Except.ok cfm', tr) →
      goodDict2 ct → goodDict2 cfm → goodDict2 cfm'
  | [], cfm, cfm', tr, h, _, hg => by
      unfold parseCustomTables at h
      have := ok_inj_of_pure_eq h
      rwa [← this]
  | (method, cmaps) :: rest, cfm, cfm', tr, h, hct, hg => by
      unfold parseCustomTables at h
      obtain ⟨cfm₁, _, _, hc, hk, _⟩ := bindT_ok h
      have hme := hct (method, cmaps) (List.mem_cons_self _ _)
      exact parseCustomTables_good hk (fun mc hmc => hct mc (List.mem_cons_of_mem _ hmc))
        (parseCustomCounts_good hme.1 hc hme.2 hg)

theorem processProjectM_good {sq : String} {args : Args} {p : Project}
    {st st' : CombState} {tr : List Event}
    (h : processProjectM sq args p st = (Except.ok st', tr))
    (hg : goodDict2 st.customFunMethods) : goodDict2 st'.customFunMethods := by
  obtain ⟨-, dc, txr, _, ko, _, cog, _, pf, _, cfm, _, ni, _, hdc, -, -, -, -, hcfm, -, hst⟩ :=
    processProjectM_ok h
  have hdcg := discoverLoop_good hdc (by intro mc hmc; simp at hmc) hg
  have : goodDict2 cfm := parseCustomTables_good hcfm hdcg.1 hdcg.2
  rw [hst]
  exact this

theorem runProjectsM_good {sq : String} {args : Args} :
    ∀ {ps : List Project} {st st' : CombState} {tr : List Event},
      runProjectsM sq args ps st = (Except.ok st', tr) →
      goodDict2 st.customFunMethods → goodDict2 st'.customFunMethods
  | [], st, st', tr, h, hg => by
      rw [runProjectsM_nil] at h
      have := @ok_inj_of_pure_eq _ st _ _ (by rw [← h]; rfl)
      rwa [← this]
  | p :: ps, st, st', tr, h, hg => by
      obtain ⟨st₁, _, _, hp, hrest, _⟩ := runProjectsM_cons_ok h
      exact runProjectsM_good hrest (processProjectM_good hp hg)

/-! ## Which names the standard emission can produce -/

def taxRelNames : List String :=
  ["superkingdom.allfilter.abund.tsv", "phylum.allfilter.abund.tsv",
   "class.allfilter.abund.tsv", "order.allfilter.abund.tsv",
   "family.allfilter.abund.tsv", "genus.allfilter.abund.tsv",
   "species.allfilter.abund.tsv", "superkingdom.prokfilter.abund.tsv",
   "phylum.prokfilter.abund.tsv", "class.prokfilter.abund.tsv",
   "order.prokfilter.abund.tsv", "family.prokfilter.abund.tsv",
   "genus.prokfilter.abund.tsv", "species.prokfilter.abund.tsv",
   "superkingdom.nofilter.abund.tsv", "phylum.nofilter.abund.tsv",
   "class.nofilter.abund.tsv", "order.nofilter.abund.tsv",
   "family.nofilter.abund.tsv", "genus.nofilter.abund.tsv",
   "species.nofilter.abund.tsv"]

def koStdNames : List String := ["KO.abund.tsv", "KO.copyNumber.tsv", "KO.tpm.tsv"]
def cogStdNames : List String := ["COG.abund.tsv", "COG.copyNumber.tsv", "COG.tpm.tsv"]
def pfamStdNames : List String := ["PFAM.abund.tsv", "PFAM.copyNumber.tsv", "PFAM.tpm.tsv"]

theorem stdPairs_name_cases {args : Args} {st : CombState} {d : FeatureDict} {name : String}
    (hmem : (d, name) ∈ stdPairs args st) :
    name ∈ taxRelNames ∨
    (st.hasKEGG = true ∧ name ∈ koStdNames) ∨
    (st.hasCOG = true ∧ name ∈ cogStdNames) ∨
    (st.hasPFAM = true ∧ name ∈ pfamStdNames) := by
  unfold stdPairs at hmem
  rcases List.mem_append.mp hmem with h | hpf
  · rcases List.mem_append.mp h with h2 | hcog
    · rcases List.mem_append.mp h2 with htax | hko
      · left
        have := List.mem_map_of_mem Prod.snd htax
        rw [show (taxPairs st).map Prod.snd = taxRelNames from rfl] at this
        exact this
      · right; left
        by_cases hk : st.hasKEGG = true
        · refine ⟨hk, ?_⟩
          rw [if_pos hk] at hko
          rcases List.mem_cons.mp hko with he | hx
          · rw [show name = ((d, name) : FeatureDict × String).2 from rfl, he]
            simp [koStdNames]
          · by_cases hs : args.sqmreads = true
            · rw [hs] at hx
              simp at hx
            · rw [show args.sqmreads = false from by simpa using hs] at hx
              simp only [Bool.not_false, if_true] at hx
              rcases List.mem_cons.mp hx with he | hx2
              · rw [show name = ((d, name) : FeatureDict × String).2 from rfl, he]
                simp [koStdNames]
              · rcases List.mem_singleton.mp hx2 with he
                rw [show name = ((d, name) : FeatureDict × String).2 from rfl, he]
                simp [koStdNames]
        · rw [if_neg hk] at hko
          simp at hko
    · right; right; left
      by_cases hc : st.hasCOG = true
      · refine ⟨hc, ?_⟩
        rw [if_pos hc] at hcog
        rcases List.mem_cons.mp hcog with he | hx
        · rw [show name = ((d, name) : FeatureDict × String).2 from rfl, he]
          simp [cogStdNames]
        · by_cases hs : args.sqmreads = true
          · rw [hs] at hx
            simp at hx
          · rw [show args.sqmreads = false from by simpa using hs] at hx
            simp only [Bool.not_false, if_true] at hx
            rcases List.mem_cons.mp hx with he | hx2
            · rw [show name = ((d, name) : FeatureDict × String).2 from rfl, he]
              simp [cogStdNames]
            · rcases List.mem_singleton.mp hx2 with he
              rw [show name = ((d, name) : FeatureDict × String).2 from rfl, he]
              simp [cogStdNames]
      · rw [if_neg hc] at hcog
        simp at hcog
  · right; right; right
    by_cases hg : (!args.sqmreads && st.hasPFAM) = true
    · rw [if_pos hg] at hpf
      refine ⟨(Bool.and_eq_true _ _ |>.mp hg).2, ?_⟩
      rcases List.mem_cons.mp hpf with he | hx
      · rw [show name = ((d, name) : FeatureDict × String).2 from rfl, he]
        simp [pfamStdNames]
      · rcases List.mem_cons.mp hx with he | hx2
        · rw [show name = ((d, name) : FeatureDict × String).2 from rfl, he]
          simp [pfamStdNames]
        · rcases List.mem_singleton.mp hx2 with he
          rw [show name = ((d, name) : FeatureDict × String).2 from rfl, he]
          simp [pfamStdNames]
    · rw [if_neg hg] at hpf
      simp at hpf

theorem emitOutputs_ok {args : Args} {pfx : String} {st : CombState}
    {outs : List (String × Table)} (h : emitOutputs args pfx st = Except.ok outs) :
    ∃ std cust nms,
      emapM (wfdE pfx) (stdWriteSpecs args st) = Except.ok std ∧
      emapM (wfdE pfx) (customWriteSpecs st) = Except.ok cust ∧
      emapM (namesWrite st pfx)
        (allMethodsList st.hasKEGG st.hasCOG st.customFunMethods) = Except.ok nms ∧
      outs = std ++ cust ++ nms := by
  unfold emitOutputs at h
  cases h1 : emapM (wfdE pfx) (stdWriteSpecs args st) with
  | error e => rw [h1] at h; simp at h
  | ok std =>
      rw [h1] at h
      cases h2 : emapM (wfdE pfx) (customWriteSpecs st) with
      | error e => rw [h2] at h; simp at h
      | ok cust =>
          rw [h2] at h
          cases h3 : emapM (namesWrite st pfx)
              (allMethodsList st.hasKEGG st.hasCOG st.customFunMethods) with
          | error e => rw [h3] at h; simp at h
          | ok nms =>
              rw [h3] at h
              cases h
              exact ⟨std, cust, nms, rfl, rfl, rfl, rfl⟩

theorem namesWrite_ok {st : CombState} {pfx m : String} {nt : String × Table}
    (h : namesWrite st pfx m = Except.ok nt) : nt.1 = pfx ++ namesFileName m := by
  unfold namesWrite at h
  cases hl : alookup st.namesInfo m with
  | none => rw [hl] at h; simp at h
  | some e =>
      rw [hl] at h
      exact (wfdE_ok h).1

theorem mem_allMethodsList {hk hc : Bool} {cfm : CustomDict} {m : String}
    (h : m ∈ allMethodsList hk hc cfm) :
    (hk = true ∧ m = "KO") ∨ (hc = true ∧ m = "COG") ∨ ∃ mp ∈ cfm, m = mp.1 := by
  unfold allMethodsList at h
  rcases List.mem_append.mp h with h1 | h2
  · rcases List.mem_append.mp h1 with h3 | h4
    · left
      cases hkk : hk with
      | false => rw [hkk] at h3; simp at h3
      | true =>
          rw [hkk] at h3
          exact ⟨rfl, List.mem_singleton.mp h3⟩
    · right; left
      cases hcc : hc with
      | false => rw [hcc] at h4; simp at h4
      | true =>
          rw [hcc] at h4
          exact ⟨rfl, List.mem_singleton.mp h4⟩
  · right; right
    obtain ⟨mp, hmp, he⟩ := List.mem_map.mp h2
    exact ⟨mp, hmp, he.symm⟩

/-- No emitted file of a presence-cleared category: for `M` one of KO, COG,
PFAM with its flag cleared, no output of the run is named
`{prefix}{M}.abund.tsv`, `.copyNumber.tsv`, `.tpm.tsv` or `.names.tsv`. -/
theorem emission_excl {args : Args} {st : CombState} {pfx : String}
    {outs : List (String × Table)} {M : String}
    (hgood : goodDict2 st.customFunMethods)
    (hout : emitOutputs args pfx st = Except.ok outs)
    (hflag : (M = "KO" ∧ st.hasKEGG = false) ∨ (M = "COG" ∧ st.hasCOG = false) ∨
      (M = "PFAM" ∧ st.hasPFAM = false)) :
    ∀ nt ∈ outs, ∀ X ∈ relNames M, nt.1 ≠ pfx ++ X := by
  intro nt hnt X hX
  have hMres : M ∈ reservedNames := by
    rcases hflag with ⟨he, -⟩ | ⟨he, -⟩ | ⟨he, -⟩ <;> subst he <;> decide
  obtain ⟨std, cust, nms, h1, h2, h3, ho⟩ := emitOutputs_ok hout
  subst ho
  rcases List.mem_append.mp hnt with hnt1 | hnms
  rcases List.mem_append.mp hnt1 with hstd | hcust
  · -- standard writes
    obtain ⟨w, hw, hfa⟩ := emapM_ok_mem h1 nt hstd
    obtain ⟨hn1, -, -⟩ := wfdE_ok hfa
    obtain ⟨dn, hdn, hwe⟩ := List.mem_map.mp hw
    have hfn : w.fname = dn.2 := by rw [← hwe]
    have hnc := stdPairs_name_cases (show (dn.1, dn.2) ∈ stdPairs args st from hdn)
    have hnotin : dn.2 ∉ relNames M := by
      rcases hflag with ⟨he, hfl⟩ | ⟨he, hfl⟩ | ⟨he, hfl⟩ <;> subst he
      · have hd : ∀ x ∈ taxRelNames ++ cogStdNames ++ pfamStdNames,
            x ∉ relNames "KO" := by decide
        rcases hnc with hx | ⟨hkt, -⟩ | ⟨-, hx⟩ | ⟨-, hx⟩
        · exact hd _ (List.mem_append.mpr (Or.inl (List.mem_append.mpr (Or.inl hx))))
        · rw [hfl] at hkt; exact absurd hkt (by simp)
        · exact hd _ (List.mem_append.mpr (Or.inl (List.mem_append.mpr (Or.inr hx))))
        · exact hd _ (List.mem_append.mpr (Or.inr hx))
      · have hd : ∀ x ∈ taxRelNames ++ koStdNames ++ pfamStdNames,
            x ∉ relNames "COG" := by decide
        rcases hnc with hx | ⟨-, hx⟩ | ⟨hct, -⟩ | ⟨-, hx⟩
        · exact hd _ (List.mem_append.mpr (Or.inl (List.mem_append.mpr (Or.inl hx))))
        · exact hd _ (List.mem_append.mpr (Or.inl (List.mem_append.mpr (Or.inr hx))))
        · rw [hfl] at hct; exact absurd hct (by simp)
        · exact hd _ (List.mem_append.mpr (Or.inr hx))
      · have hd : ∀ x ∈ taxRelNames ++ koStdNames ++ cogStdNames,
            x ∉ relNames "PFAM" := by decide
        rcases hnc with hx | ⟨-, hx⟩ | ⟨-, hx⟩ | ⟨hpt, -⟩
        · exact hd _ (List.mem_append.mpr (Or.inl (List.mem_append.mpr (Or.inl hx))))
        · exact hd _ (List.mem_append.mpr (Or.inl (List.mem_append.mpr (Or.inr hx))))
        · exact hd _ (List.mem_append.mpr (Or.inr hx))
        · rw [hfl] at hpt; exact absurd hpt (by simp)
    rw [hn1, hfn]
    exact pfx_append_ne pfx (fun he => hnotin (he ▸ hX))
  · -- custom writes
    obtain ⟨w, hw, hfa⟩ := emapM_ok_mem h2 nt hcust
    obtain ⟨hn1, -, -⟩ := wfdE_ok hfa
    obtain ⟨mp, hmp, cd, hcd, hwe⟩ := customWriteSpecs_mem hw
    have hfn : w.fname = funFileName mp.1 cd.1 := by rw [hwe]
    have hgm := hgood mp hmp
    have hmne : mp.1 ≠ M := fun he => hgm.1 (he ▸ hMres)
    rw [hn1, hfn]
    exact pfx_append_ne pfx (funFileName_ne_rel hmne (hgm.2 cd hcd) X hX)
  · -- names writes
    obtain ⟨m, hm, hfa⟩ := emapM_ok_mem h3 nt hnms
    have hn1 := namesWrite_ok hfa
    rw [hn1]
    rcases mem_allMethodsList hm with ⟨hkt, he⟩ | ⟨hct, he⟩ | ⟨mp, hmp, he⟩
    · subst he
      rcases hflag with ⟨he, hfl⟩ | ⟨he, hfl⟩ | ⟨he, hfl⟩ <;> subst he
      · rw [hfl] at hkt; exact absurd hkt (by simp)
      · exact pfx_append_ne pfx (fun hcontra =>
          (show ∀ X ∈ relNames "COG", namesFileName "KO" ≠ X by decide) X hX hcontra)
      · exact pfx_append_ne pfx (fun hcontra =>
          (show ∀ X ∈ relNames "PFAM", namesFileName "KO" ≠ X by decide) X hX hcontra)
    · subst he
      rcases hflag with ⟨he, hfl⟩ | ⟨he, hfl⟩ | ⟨he, hfl⟩ <;> subst he
      · exact pfx_append_ne pfx (fun hcontra =>
          (show ∀ X ∈ relNames "KO", namesFileName "COG" ≠ X by decide) X hX hcontra)
      · rw [hfl] at hct; exact absurd hct (by simp)
      · exact pfx_append_ne pfx (fun hcontra =>
          (show ∀ X ∈ relNames "PFAM", namesFileName "COG" ≠ X by decide) X hX hcontra)
    · subst he
      have hgm := hgood mp hmp
      have hmne : mp.1 ≠ M := fun he => hgm.1 (he ▸ hMres)
      exact pfx_append_ne pfx (namesFileName_ne_rel hmne X hX)

/-- Claim C5 (amended): the KEGG and COG presence flags start `true` but the
PFAM flag starts `true` only in standard mode — in `--sqm-reads` mode it is
initialised `false`; each project iteration conjoins the flag with the
presence of that category's abund table (so a flag is permanently cleared
the first time a project misses the table and is never reset — in reads mode
the PFAM block is skipped and the flag is left unchanged); at the end of a
successful run each flag equals "every project had the table" (with PFAM
additionally requiring standard mode); and once a flag ends up cleared no
output file of that category — abund, copyNumber, tpm or names — is
emitted. -/
theorem presence_flags_lifecycle :
    (∀ args : Args, (initState args).hasKEGG = true ∧ (initState args).hasCOG = true ∧
      (initState args).hasPFAM = !args.sqmreads) ∧
    (∀ sq args p st st' tr, processProjectM sq args p st = (Except.ok st', tr) →
      st'.hasKEGG = (st.hasKEGG && hasTableFile p (projNameOf p.path ++ ".KO.abund.tsv")) ∧
      st'.hasCOG = (st.hasCOG && hasTableFile p (projNameOf p.path ++ ".COG.abund.tsv")) ∧
      st'.hasPFAM = (if args.sqmreads then st.hasPFAM
        else st.hasPFAM && hasTableFile p (projNameOf p.path ++ ".PFAM.abund.tsv"))) ∧
    (∀ sq args ps st tr, runCombine sq args ps = (Except.ok st, tr) →
      st.hasKEGG = ps.all (fun p => hasTableFile p (projNameOf p.path ++ ".KO.abund.tsv")) ∧
      st.hasCOG = ps.all (fun p => hasTableFile p (projNameOf p.path ++ ".COG.abund.tsv")) ∧
      st.hasPFAM = (!args.sqmreads &&
        ps.all (fun p => hasTableFile p (projNameOf p.path ++ ".PFAM.abund.tsv")))) ∧
    (∀ sq args ps st tr pfx outs, runCombine sq args ps = (Except.ok st, tr) →
      emitOutputs args pfx st = Except.ok outs →
      (st.hasKEGG = false → ∀ nt ∈ outs, ∀ X ∈ relNames "KO", nt.1 ≠ pfx ++ X) ∧
      (st.hasCOG = false → ∀ nt ∈ outs, ∀ X ∈ relNames "COG", nt.1 ≠ pfx ++ X) ∧
      (st.hasPFAM = false → ∀ nt ∈ outs, ∀ X ∈ relNames "PFAM", nt.1 ≠ pfx ++ X)) := by
  refine ⟨fun args => ⟨rfl, rfl, rfl⟩, ?_, ?_, ?_⟩
  · intro sq args p st st' tr h
    obtain ⟨-, dc, txr, _, ko, _, cog, _, pf, _, cfm, _, ni, _, -, -, hko, hcog, hpf, -, -, hst⟩ :=
      processProjectM_ok h
    have h1 := parseFunctional_ok_flag hko
    have h2 := parseFunctional_ok_flag hcog
    have h3 := parsePFAM_ok_flag hpf
    have hK : st'.hasKEGG = ko.flag := by rw [hst]
    have hC : st'.hasCOG = cog.flag := by rw [hst]
    have hP : st'.hasPFAM = pf.flag := by rw [hst]
    refine ⟨?_, ?_, ?_⟩
    · rw [hK, h1]
      simp [String.append_assoc]
    · rw [hC, h2]
      simp [String.append_assoc]
    · rw [hP, h3]
  · intro sq args ps st tr hrun
    obtain ⟨h1, h2, h3⟩ := runProjectsM_flags (hrun : runProjectsM sq args ps (initState args) =
      (Except.ok st, tr))
    refine ⟨by simpa [initState] using h1, by simpa [initState] using h2, ?_⟩
    rw [h3]
    by_cases hs : args.sqmreads <;> simp [hs, initState]
  · intro sq args ps st tr pfx outs hrun hout
    have hgood : goodDict2 st.customFunMethods :=
      runProjectsM_good (hrun : runProjectsM sq args ps (initState args) = (Except.ok st, tr))
        (by intro mc hmc; simp [initState] at hmc)
    exact ⟨fun hf => emission_excl hgood hout (Or.inl ⟨rfl, hf⟩),
      fun hf => emission_excl hgood hout (Or.inr (Or.inl ⟨rfl, hf⟩)),
      fun hf => emission_excl hgood hout (Or.inr (Or.inr ⟨rfl, hf⟩))⟩

/-- Counterexample for C5 as stated: the PFAM presence flag does not start
`true` in a `--sqm-reads` run — it is initialised to `not args.sqmreads`. -/
theorem hasPFAM_starts_false_in_reads_mode :
    (initState wArgsSqm).hasPFAM = false := by rfl

/-- Outputs of the C3 witness run (whose `hasKEGG` flag ended up cleared). -/
def wOutsC3 : List (String × Table) :=
  (emitOutputs wArgsSqm (outPfx wArgsSqm) wStC3).toOption.getD []

/-- Witness for C5: in the concrete run of `wProjC3` (which has no KO
tables) the KEGG flag ends cleared and the first emitted file — present in
the outputs — is not the KO abundance file. -/
theorem presence_flags_lifecycle_witness :
    runCombine "sq" wArgsSqm [wProjC3] =
      (Except.ok wStC3, (runCombine "sq" wArgsSqm [wProjC3]).2) ∧
    emitOutputs wArgsSqm (outPfx wArgsSqm) wStC3 = Except.ok wOutsC3 ∧
    wStC3.hasKEGG = false ∧
    ("out/combined.superkingdom.allfilter.abund.tsv",
      (⟨["S3"], [("Bacteria", ["10"])]⟩ : Table)) ∈ wOutsC3 ∧
    "KO.abund.tsv" ∈ relNames "KO" ∧
    "out/combined.superkingdom.allfilter.abund.tsv" ≠
      outPfx wArgsSqm ++ "KO.abund.tsv" := by
  have hrun : runCombine "sq" wArgsSqm [wProjC3] =
      (Except.ok wStC3, (runCombine "sq" wArgsSqm [wProjC3]).2) := by rfl
  have hout : emitOutputs wArgsSqm (outPfx wArgsSqm) wStC3 = Except.ok wOutsC3 := by rfl
  have hflag : wStC3.hasKEGG = false := by rfl
  have hmem : ("out/combined.superkingdom.allfilter.abund.tsv",
      (⟨["S3"], [("Bacteria", ["10"])]⟩ : Table)) ∈ wOutsC3 := by decide
  have hX : "KO.abund.tsv" ∈ relNames "KO" := by decide
  refine ⟨hrun, hout, hflag, hmem, hX, ?_⟩
  exact ((presence_flags_lifecycle.2.2.2 "sq" wArgsSqm [wProjC3] wStC3 _
    (outPfx wArgsSqm) wOutsC3 hrun hout).1 hflag) _ hmem "KO.abund.tsv" hX

end CombineSQM
